import Mathlib

/-!
Shallow embedding of `a_star.py`: the 8-puzzle `State` class, its move
generation, the three heuristics, the solvability predicate, and the A*
search loop.  Python lists of tiles become `List Nat`; the `heapq` frontier
becomes a list together with a minimum-extraction function (`popMin`) that
realises `heappop`'s contract of returning the least element under Python's
lexicographic tuple comparison; dictionaries become association lists with
first-match lookup (insertion conses a pair, matching dict overwrite
semantics); the unbounded `while` loop becomes a fuel-indexed loop whose
fuel exhaustion is signalled by `none`, so `some r` means the Python loop
terminates with result `r`.
-/

/-- Python comparison of equal-purpose tuples of ints, restricted to lists:
`tuple(self.state) < tuple(other.state)` in `State.__lt__`. -/
def listLexLt : List Nat → List Nat → Bool
  | _, [] => false
  | [], _ :: _ => true
  | a :: as, b :: bs => if a < b then true else if b < a then false else listLexLt as bs

/-- The `State` class: a board is the list of which tile is in which
position, tile `0` being the empty space. -/
structure State where
  state : List Nat
deriving DecidableEq

/-- A board that actually satisfies the documented representation
invariant: a permutation of the nine tile values `0..8`. -/
def State.Valid (s : State) : Prop := s.state.Perm (List.range 9)

instance (s : State) : Decidable s.Valid := List.decidablePerm _ _

/-- `State.__init__`: the constructor stores the given sequence as-is.  The
result is wrapped in `Option` so that a raised exception would be `none`;
the source body is a single unconditional assignment, so it always
succeeds. -/
def State.init (tiles : List Nat) : Option State := some ⟨tiles⟩

/-- `State.get_tile_neighbours`: the static adjacency table of the 3x3
grid, a `match` on the tile position exactly as in the source.  (On an
argument outside `0..8` the Python `match` falls through and the caller
would crash; the total model returns `[]`, a case no valid board ever
reaches since the blank's index is always below 9.) -/
def State.get_tile_neighbours (tile : Nat) : List Nat :=
  match tile with
  | 0 => [1, 3]
  | 1 => [0, 2, 4]
  | 2 => [1, 5]
  | 3 => [0, 4, 6]
  | 4 => [1, 3, 5, 7]
  | 5 => [2, 4, 8]
  | 6 => [3, 7]
  | 7 => [4, 6, 8]
  | 8 => [5, 7]
  | _ => []

/-- The simultaneous assignment
`newstate[emptytile], newstate[i] = newstate[i], newstate[emptytile]`
performed on a copy of the list: position `a` receives the old element at
`b` and position `b` the old element at `a`. -/
def swapList (l : List Nat) (a b : Nat) : List Nat :=
  (l.set a (l.getD b 0)).set b (l.getD a 0)

/-- `State.get_neighbours`: locate the blank, and for each adjacent
position produce the state with the blank swapped into it. -/
def State.get_neighbours (s : State) : List State :=
  let emptytile := s.state.indexOf 0
  (State.get_tile_neighbours emptytile).map (fun i => State.mk (swapList s.state emptytile i))

/-- `State.num_misplaced_tiles` (h1): the loop over `range(9)` counting
positions whose tile differs from the target's and is not the blank. -/
def State.num_misplaced_tiles (tiles targets : State) : Nat :=
  ((List.range 9).map (fun i =>
    if tiles.state.getD i 0 ≠ targets.state.getD i 0 ∧ tiles.state.getD i 0 ≠ 0 then 1 else 0)).sum

/-- `State.calc_manhattan_dist`: `divmod(tile, 3)` row/column split and the
sum of absolute coordinate differences. -/
def State.calc_manhattan_dist (tile target : Nat) : Nat :=
  (((tile : Int) / 3) - ((target : Int) / 3)).natAbs + (((tile : Int) % 3) - ((target : Int) % 3)).natAbs

/-- `State.sum_manhattan_dists` (h2): for every non-blank tile, the
Manhattan distance from its position to the position of the same tile
value in the target (`targets.state.index(...)`). -/
def State.sum_manhattan_dists (tiles targets : State) : Nat :=
  ((List.range 9).map (fun i =>
    if tiles.state.getD i 0 ≠ 0 then
      State.calc_manhattan_dist i (targets.state.indexOf (tiles.state.getD i 0))
    else 0)).sum

/-- The `tiles_in_line` accumulation inside `count_conflicts_line`: the
(tile, position, target position) triples of non-blank tiles of the line
whose target position lies in the same line, in line order. -/
def tilesInLine (current target : List Nat) (line : List Nat) : List (Nat × Nat × Nat) :=
  line.filterMap (fun pos =>
    let tile := current.getD pos 0
    if tile ≠ 0 then
      let tp := target.indexOf tile
      if tp ∈ line then some (tile, pos, tp) else none
    else none)

/-- The double loop of `count_conflicts_line`: over the pairs `i < j` of
collected triples, count those whose current order disagrees with their
target order. -/
def countConf : List (Nat × Nat × Nat) → Nat
  | [] => 0
  | t :: ts => ts.countP (fun u => (decide (t.2.1 < u.2.1)) != (decide (t.2.2 < u.2.2))) + countConf ts

/-- `count_conflicts_line` applied to one line of positions. -/
def count_conflicts_line (current target line : List Nat) : Nat :=
  countConf (tilesInLine current target line)

/-- `State.linear_conflicts` (h3): conflicts summed over the three rows and
three columns, doubled, plus the Manhattan-distance sum. -/
def State.linear_conflicts (tiles targets : State) : Nat :=
  (((List.range 3).map (fun row =>
      count_conflicts_line tiles.state targets.state ((List.range 3).map (fun i => row * 3 + i)))).sum +
   ((List.range 3).map (fun col =>
      count_conflicts_line tiles.state targets.state ((List.range 3).map (fun i => i * 3 + col)))).sum) * 2 +
  State.sum_manhattan_dists tiles targets

/-- The inversion count of `is_solvable`: for each element, how many later
elements are smaller. -/
def countInv : List Nat → Nat
  | [] => 0
  | x :: xs => xs.countP (fun y => decide (y < x)) + countInv xs

/-- Cross inversions between two blocks: pairs with the larger element in
the first block, used to decompose `countInv` over concatenations. -/
def cross (X Y : List Nat) : Nat :=
  (X.map (fun x => Y.countP (fun y => decide (y < x)))).sum

/-- `State.is_solvable`: drop the blank, count inversions, test evenness. -/
def State.is_solvable (s : State) : Bool :=
  countInv (s.state.filter (fun t => decide (t ≠ 0))) % 2 == 0

/-- The demonstration start board at the bottom of the file. -/
def init_list : List Nat := [7, 2, 4, 5, 0, 6, 8, 3, 1]

/-- The canonical ordered goal board. -/
def goal_list : List Nat := [0, 1, 2, 3, 4, 5, 6, 7, 8]

/-- A frontier entry, the tuple `(f_score, g, state)` pushed on the heap. -/
abbrev Entry := Nat × Nat × State

/-- Python's `<` on two frontier tuples: compare `f`, then `g`, then the
states through `State.__lt__` (lexicographic on the tile lists). -/
def entryLt (a b : Entry) : Bool :=
  decide (a.1 < b.1) ||
    (decide (a.1 = b.1) &&
      (decide (a.2.1 < b.2.1) ||
        (decide (a.2.1 = b.2.1) && listLexLt a.2.2.state b.2.2.state)))

/-- `heapq.heappop`: remove and return the least entry of the frontier
(`none` on an empty frontier).  Among equal least entries the first is
taken; equal entries are indistinguishable values, so this matches the
heap. -/
def popMin : List Entry → Option (Entry × List Entry)
  | [] => none
  | e :: rest =>
    match popMin rest with
    | none => some (e, [])
    | some (m, rest') => if entryLt m e then some (m, e :: rest') else some (e, rest)

/-- Dictionary lookup: association-list with first-match-wins, so that
consing a pair implements Python dict overwrite. -/
def findVal {α : Type} : List (State × α) → State → Option α
  | [], _ => none
  | (k, v) :: rest, s => if s = k then some v else findVal rest s

/-- The mutable locals of one `a_star` invocation. -/
structure Frontier where
  open_set : List Entry
  came_from : List (State × State)
  closed_set : List State
  g_scores : List (State × Nat)
  nodes_expanded : Nat
deriving DecidableEq

/-- The body of `for neighbour in current_state.get_neighbours()`: skip
closed neighbours; otherwise, if the tentative g-score (`current_g + 1`)
beats any recorded one (or none is recorded), record predecessor and
g-score and push `(g + h, g, neighbour)` onto the frontier. -/
def relax (h : State → State → Nat) (target cur : State) (g : Nat) (closed : List State)
    (acc : List Entry × List (State × State) × List (State × Nat)) (nb : State) :
    List Entry × List (State × State) × List (State × Nat) :=
  let os := acc.1
  let cf := acc.2.1
  let gs := acc.2.2
  if nb ∈ closed then (os, cf, gs)
  else
    let tg := g + 1
    match findVal gs nb with
    | some gn =>
      if tg < gn then ((tg + h nb target, tg, nb) :: os, (nb, cur) :: cf, (nb, tg) :: gs)
      else (os, cf, gs)
    | none => ((tg + h nb target, tg, nb) :: os, (nb, cur) :: cf, (nb, tg) :: gs)

/-- The backtracking `while state in came_from` loop of the goal branch:
follow predecessor links, collecting the visited states.  The fuel
argument bounds the walk; `a_star` passes one more than the size of the
predecessor map, which (predecessors strictly decrease the recorded
g-score) is never less than the walk Python performs. -/
def backtrack (cf : List (State × State)) : Nat → State → List State
  | 0, _ => []
  | fuel + 1, s =>
    match findVal cf s with
    | none => []
    | some p => s :: backtrack cf fuel p

/-- Outcome of one iteration of the `while open_set` loop: either the
function returns, or the loop continues with updated locals. -/
inductive StepRes where
  | done : Option (List State) × Nat × Nat → StepRes
  | next : Frontier → StepRes

/-- One iteration of the `while open_set` loop of `a_star`: pop the least
entry; skip it if already expanded; return the reconstructed path if it is
the target; otherwise close it, count the expansion, and relax all its
neighbours. -/
def aStarStep (h : State → State → Nat) (start target : State) (fr : Frontier) : StepRes :=
  match popMin fr.open_set with
  | none => .done (none, 0, fr.nodes_expanded)
  | some ((_, g, cur), rest) =>
    if cur ∈ fr.closed_set then
      .next ⟨rest, fr.came_from, fr.closed_set, fr.g_scores, fr.nodes_expanded⟩
    else if cur = target then
      let chain := backtrack fr.came_from (fr.came_from.length + 1) cur
      let path := (chain ++ [start]).reverse
      .done (some path, path.length - 1, fr.nodes_expanded)
    else
      let closed' := cur :: fr.closed_set
      let t := cur.get_neighbours.foldl (relax h target cur g closed') (rest, fr.came_from, fr.g_scores)
      .next ⟨t.1, t.2.1, closed', t.2.2, fr.nodes_expanded + 1⟩

/-- The `while open_set` loop, indexed by fuel; `none` means the fuel ran
out before the Python loop would have returned. -/
def aStarLoop (h : State → State → Nat) (start target : State) :
    Nat → Frontier → Option (Option (List State) × Nat × Nat)
  | 0, _ => none
  | fuel + 1, fr =>
    match aStarStep h start target fr with
    | .done r => some r
    | .next fr' => aStarLoop h start target fuel fr'

/-- `State.a_star`: initialise the frontier with `(h(self, target), 0,
self)`, the g-score map with `self -> 0`, and run the loop. -/
def State.a_star (s : State) (target : State) (h : State → State → Nat) (fuel : Nat) :
    Option (Option (List State) × Nat × Nat) :=
  aStarLoop h s target fuel ⟨[(h s target, 0, s)], [], [], [(s, 0)], 0⟩

/-- One blank-swap move: `t` is among the states `get_neighbours` offers
from `s`. -/
def Move (s t : State) : Prop := t ∈ s.get_neighbours

instance (s t : State) : Decidable (Move s t) := by unfold Move; infer_instance

/-- `target` can be reached from `start` by a sequence of blank-swap
moves: a start/target pair is solvable exactly when this holds. -/
def Reachable : State → State → Prop := Relation.ReflTransGen Move

/-- Index-pair formulation of the inversion count of a sequence, following
the spec's words: the number of pairs `i < j` with `tile[i] > tile[j]`. -/
def pairInversions (l : List Nat) : Nat :=
  ((List.range l.length).map (fun i =>
    (List.range l.length).countP (fun j => decide (i < j ∧ l.getD j 0 < l.getD i 0)))).sum

/-- The states carried by a list of frontier entries. -/
def stOf (l : List Entry) : List State := l.map (fun e => e.2.2)

/-- All tile permutations: the finite space every valid board lives in. -/
def allPerms : List (List Nat) := (List.range 9).permutations

/-- Size of the space of valid boards. -/
def stateSpaceN : Nat := allPerms.length

/-- Termination measure of the search loop: closing a new state pays for
the at most four entries it pushes, and every other iteration shortens the
frontier. -/
def measureFr (fr : Frontier) : Nat :=
  5 * (stateSpaceN - fr.closed_set.length) + fr.open_set.length

/-- Loop invariant of `a_star`'s `while open_set` loop, relating the four
mutable structures to the fixed `start` and `target`. -/
structure SearchInv (start target : State) (fr : Frontier) : Prop where
  closed_nodup : fr.closed_set.Nodup
  closed_valid : ∀ c ∈ fr.closed_set, c.Valid
  open_valid : ∀ e ∈ fr.open_set, e.2.2.Valid
  open_reach : ∀ e ∈ fr.open_set, Reachable start e.2.2
  closed_reach : ∀ c ∈ fr.closed_set, Reachable start c
  closure : ∀ c ∈ fr.closed_set, ∀ n ∈ c.get_neighbours,
    n ∈ fr.closed_set ∨ n ∈ stOf fr.open_set
  start_mem : start ∈ fr.closed_set ∨ start ∈ stOf fr.open_set
  target_closed : target ∉ fr.closed_set
  cf_adj : ∀ a p, findVal fr.came_from a = some p → a ∈ p.get_neighbours
  cf_gs : ∀ a p, findVal fr.came_from a = some p →
    ∃ ga gp, findVal fr.g_scores a = some ga ∧ findVal fr.g_scores p = some gp ∧ gp < ga
  cf_start : findVal fr.came_from start = none
  gs_start : findVal fr.g_scores start = some 0
  gs_cf : ∀ a, findVal fr.g_scores a ≠ none → a = start ∨ findVal fr.came_from a ≠ none
  gs_mem : ∀ a, findVal fr.g_scores a ≠ none → a ∈ fr.closed_set ∨ a ∈ stOf fr.open_set
  open_gs : ∀ e ∈ fr.open_set, ∃ g0, findVal fr.g_scores e.2.2 = some g0 ∧ g0 ≤ e.2.1
  gs_bound : ∀ a g0, findVal fr.g_scores a = some g0 → g0 ≤ fr.came_from.length
  open_g_bound : ∀ e ∈ fr.open_set, e.2.1 ≤ fr.came_from.length

/-- Invariant carried through the neighbour-relaxation fold inside one
expansion: `cur` is the state being expanded, `g` its popped g-score,
`closed` already contains `cur`. -/
structure RelaxInv (start cur : State) (g : Nat) (closed : List State)
    (os : List Entry) (cf : List (State × State)) (gs : List (State × Nat)) : Prop where
  open_valid : ∀ e ∈ os, e.2.2.Valid
  open_reach : ∀ e ∈ os, Reachable start e.2.2
  cf_adj : ∀ a p, findVal cf a = some p → a ∈ p.get_neighbours
  cf_gs : ∀ a p, findVal cf a = some p →
    ∃ ga gp, findVal gs a = some ga ∧ findVal gs p = some gp ∧ gp < ga
  cf_start : findVal cf start = none
  gs_start : findVal gs start = some 0
  gs_cf : ∀ a, findVal gs a ≠ none → a = start ∨ findVal cf a ≠ none
  gs_mem : ∀ a, findVal gs a ≠ none → a ∈ closed ∨ a ∈ stOf os
  open_gs : ∀ e ∈ os, ∃ g0, findVal gs e.2.2 = some g0 ∧ g0 ≤ e.2.1
  gs_bound : ∀ a g0, findVal gs a = some g0 → g0 ≤ cf.length
  open_g_bound : ∀ e ∈ os, e.2.1 ≤ cf.length
  g_bound : g ≤ cf.length
  gs_cur : ∃ gc, findVal gs cur = some gc ∧ gc ≤ g

theorem listLexLt_irrefl (l : List Nat) : listLexLt l l = false := by
  induction l with
  | nil => rfl
  | cons a as ih => simp [listLexLt, ih]

theorem listLexLt_asymm : ∀ {a b : List Nat}, listLexLt a b = true → listLexLt b a = false := by
  intro a
  induction a with
  | nil => intro b h; cases b with
    | nil => simp [listLexLt] at h
    | cons x xs => simp [listLexLt]
  | cons x xs ih =>
    intro b h
    cases b with
    | nil => simp [listLexLt] at h
    | cons y ys =>
      simp only [listLexLt] at h ⊢
      by_cases hxy : x < y
      · have : ¬ y < x := by omega
        simp [hxy, this]
      · by_cases hyx : y < x
        · simp [hxy, hyx] at h
        · have hx : x = y := by omega
          subst hx
          simp only [Nat.lt_irrefl, if_false] at h ⊢
          exact ih h

theorem listLexLt_trichotomy :
    ∀ (a b : List Nat), listLexLt a b = true ∨ listLexLt b a = true ∨ a = b := by
  intro a
  induction a with
  | nil => intro b; cases b with
    | nil => right; right; rfl
    | cons y ys => left; simp [listLexLt]
  | cons x xs ih =>
    intro b
    cases b with
    | nil => right; left; simp [listLexLt]
    | cons y ys =>
      by_cases hxy : x < y
      · left; simp [listLexLt, hxy]
      · by_cases hyx : y < x
        · right; left; simp [listLexLt, hyx]
        · have hx : x = y := by omega
          subst hx
          rcases ih ys with h | h | h
          · left; simp [listLexLt, h]
          · right; left; simp [listLexLt, h]
          · right; right; rw [h]

theorem listLexLt_trans :
    ∀ {a b c : List Nat}, listLexLt a b = true → listLexLt b c = true → listLexLt a c = true := by
  intro a
  induction a with
  | nil =>
    intro b c hab hbc
    cases b with
    | nil => simp [listLexLt] at hab
    | cons y ys =>
      cases c with
      | nil => simp [listLexLt] at hbc
      | cons z zs => simp [listLexLt]
  | cons x xs ih =>
    intro b c hab hbc
    cases b with
    | nil => simp [listLexLt] at hab
    | cons y ys =>
      cases c with
      | nil => simp [listLexLt] at hbc
      | cons z zs =>
        simp only [listLexLt] at hab hbc ⊢
        by_cases hxy : x < y <;> by_cases hyz : y < z
        · have : x < z := by omega
          simp [this]
        · by_cases hzy : z < y
          · simp [hxy, hyz, hzy] at hbc
          · have : y = z := by omega
            subst this
            simp [hxy]
        · by_cases hyx : y < x
          · simp [hxy, hyx] at hab
          · have : x = y := by omega
            subst this
            have : x < z := hyz
            simp [this]
        · by_cases hyx : y < x
          · simp [hxy, hyx] at hab
          · by_cases hzy : z < y
            · simp [hyz, hzy] at hbc
            · have h1 : x = y := by omega
              have h2 : y = z := by omega
              subst h1; subst h2
              simp only [Nat.lt_irrefl, if_false] at hab hbc ⊢
              exact ih hab hbc

theorem entryLt_irrefl (a : Entry) : entryLt a a = false := by
  simp [entryLt, listLexLt_irrefl]

theorem entryLt_asymm {a b : Entry} (h : entryLt a b = true) : entryLt b a = false := by
  simp only [entryLt, Bool.or_eq_true, Bool.and_eq_true, decide_eq_true_eq] at h ⊢
  rcases h with h | ⟨h1, h | ⟨h2, h3⟩⟩
  · simp [entryLt]; omega
  · simp [entryLt]; omega
  · have := listLexLt_asymm h3
    simp [entryLt, this]; omega

theorem entryLt_trans {a b c : Entry} (hab : entryLt a b = true) (hbc : entryLt b c = true) :
    entryLt a c = true := by
  simp only [entryLt, Bool.or_eq_true, Bool.and_eq_true, decide_eq_true_eq] at hab hbc ⊢
  rcases hab with h | ⟨h1, h | ⟨h2, h3⟩⟩ <;> rcases hbc with g | ⟨g1, g | ⟨g2, g3⟩⟩
  · left; omega
  · left; omega
  · left; omega
  · left; omega
  · right; exact ⟨by omega, Or.inl (by omega)⟩
  · right; exact ⟨by omega, Or.inl (by omega)⟩
  · left; omega
  · right; exact ⟨by omega, Or.inl (by omega)⟩
  · right; exact ⟨by omega, Or.inr ⟨by omega, listLexLt_trans h3 g3⟩⟩

theorem entryLt_trichotomy (a b : Entry) :
    entryLt a b = true ∨ entryLt b a = true ∨ a = b := by
  simp only [entryLt, Bool.or_eq_true, Bool.and_eq_true, decide_eq_true_eq]
  rcases Nat.lt_trichotomy a.1 b.1 with h | h | h
  · left; left; exact h
  · rcases Nat.lt_trichotomy a.2.1 b.2.1 with g | g | g
    · left; right; exact ⟨h, Or.inl g⟩
    · rcases listLexLt_trichotomy a.2.2.state b.2.2.state with t | t | t
      · left; right; exact ⟨h, Or.inr ⟨g, t⟩⟩
      · right; left; right; exact ⟨h.symm, Or.inr ⟨g.symm, t⟩⟩
      · right; right
        have hs : a.2.2 = b.2.2 := congrArg State.mk t
        have : a.2 = b.2 := Prod.ext g hs
        exact Prod.ext h this
    · right; left; right; exact ⟨h.symm, Or.inl g⟩
  · right; left; left; exact h

theorem popMin_none {l : List Entry} : popMin l = none ↔ l = [] := by
  cases l with
  | nil => simp [popMin]
  | cons e rest =>
    simp only [popMin]
    constructor
    · intro h
      cases hrest : popMin rest with
      | none => simp [hrest] at h
      | some p => rcases p with ⟨m, r⟩; simp [hrest] at h; split at h <;> simp_all
    · intro h; exact absurd h (by simp)

theorem popMin_perm :
    ∀ {l : List Entry} {e : Entry} {rest : List Entry},
      popMin l = some (e, rest) → l.Perm (e :: rest) := by
  intro l
  induction l with
  | nil => intro e rest h; simp [popMin] at h
  | cons a as ih =>
    intro e rest h
    simp only [popMin] at h
    cases has : popMin as with
    | none =>
      rw [has] at h
      simp only [Option.some.injEq, Prod.mk.injEq] at h
      have : as = [] := popMin_none.mp has
      subst this
      rw [← h.1, ← h.2]
    | some p =>
      rcases p with ⟨m, r⟩
      rw [has] at h
      dsimp only at h
      by_cases hlt : entryLt m a = true
      · rw [if_pos hlt] at h
        simp only [Option.some.injEq, Prod.mk.injEq] at h
        rw [← h.1, ← h.2]
        exact ((ih has).cons a).trans (List.Perm.swap m a r)
      · rw [if_neg hlt] at h
        simp only [Option.some.injEq, Prod.mk.injEq] at h
        rw [← h.1, ← h.2]

theorem popMin_not_lt :
    ∀ {l : List Entry} {e : Entry} {rest : List Entry},
      popMin l = some (e, rest) → ∀ x ∈ l, entryLt x e = false := by
  intro l
  induction l with
  | nil => intro e rest h; simp [popMin] at h
  | cons a as ih =>
    intro e rest h x hx
    simp only [popMin] at h
    cases has : popMin as with
    | none =>
      rw [has] at h
      simp only [Option.some.injEq, Prod.mk.injEq] at h
      have : as = [] := popMin_none.mp has
      subst this
      rcases List.mem_singleton.mp hx with rfl
      rw [← h.1]
      exact entryLt_irrefl x
    | some p =>
      rcases p with ⟨m, r⟩
      rw [has] at h
      dsimp only at h
      by_cases hlt : entryLt m a = true
      · rw [if_pos hlt] at h
        simp only [Option.some.injEq, Prod.mk.injEq] at h
        rcases List.mem_cons.mp hx with rfl | hx'
        · rw [← h.1]
          exact entryLt_asymm hlt
        · rw [← h.1]
          exact ih has x hx'
      · rw [if_neg hlt] at h
        simp only [Option.some.injEq, Prod.mk.injEq] at h
        rcases List.mem_cons.mp hx with rfl | hx'
        · rw [← h.1]
          exact entryLt_irrefl x
        · rw [← h.1]
          by_contra hc
          have hxa : entryLt x a = true := by
            cases hval : entryLt x a
            · exact absurd hval hc
            · rfl
          have hxm := ih has x hx'
          rcases entryLt_trichotomy x m with t | t | t
          · rw [hxm] at t; exact Bool.noConfusion t
          · exact hlt (entryLt_trans t hxa)
          · subst t; exact hlt hxa

theorem mem_table {e i : Nat} (h : i ∈ State.get_tile_neighbours e) :
    e < 9 ∧ i < 9 ∧ i ≠ e ∧
      ((e < i ∧ (i - e = 1 ∨ i - e = 3)) ∨ (i < e ∧ (e - i = 1 ∨ e - i = 3))) := by
  rcases e with _|_|_|_|_|_|_|_|_|e <;> simp [State.get_tile_neighbours] at h <;> omega

theorem table_symm_bounded :
    ∀ e, e < 9 → ∀ i, i < 9 →
      (i ∈ State.get_tile_neighbours e → e ∈ State.get_tile_neighbours i) := by decide

theorem table_len (e : Nat) : (State.get_tile_neighbours e).length ≤ 4 := by
  rcases e with _|_|_|_|_|_|_|_|_|e <;> simp [State.get_tile_neighbours]

theorem length_swapList (l : List Nat) (a b : Nat) : (swapList l a b).length = l.length := by
  simp [swapList]

theorem swapList_getElem? {l : List Nat} {a b : Nat} (ha : a < l.length) (hb : b < l.length)
    (n : Nat) :
    (swapList l a b)[n]? = if n = b then l[a]? else if n = a then l[b]? else l[n]? := by
  unfold swapList
  rw [List.getD_eq_getElem _ _ ha, List.getD_eq_getElem _ _ hb]
  by_cases hnb : n = b
  · subst hnb
    rw [if_pos rfl, List.getElem?_set_self (by simpa using hb), List.getElem?_eq_getElem ha]
  · rw [if_neg hnb, List.getElem?_set_ne (fun h => hnb h.symm)]
    by_cases hna : n = a
    · subst hna
      rw [if_pos rfl, List.getElem?_set_self ha, List.getElem?_eq_getElem hb]
    · rw [if_neg hna, List.getElem?_set_ne (fun h => hna h.symm)]

theorem getD_swapList_left {l : List Nat} {a b : Nat} (ha : a < l.length) (hb : b < l.length) :
    (swapList l a b).getD a 0 = l.getD b 0 := by
  rw [List.getD_eq_getElem?_getD, List.getD_eq_getElem?_getD, swapList_getElem? ha hb]
  by_cases hab : a = b
  · subst hab; simp
  · rw [if_neg hab, if_pos rfl]

theorem getD_swapList_right {l : List Nat} {a b : Nat} (ha : a < l.length) (hb : b < l.length) :
    (swapList l a b).getD b 0 = l.getD a 0 := by
  rw [List.getD_eq_getElem?_getD, List.getD_eq_getElem?_getD, swapList_getElem? ha hb]
  rw [if_pos rfl]

theorem getD_swapList_other {l : List Nat} {a b j : Nat} (ha : a < l.length) (hb : b < l.length)
    (hja : j ≠ a) (hjb : j ≠ b) :
    (swapList l a b).getD j 0 = l.getD j 0 := by
  rw [List.getD_eq_getElem?_getD, List.getD_eq_getElem?_getD, swapList_getElem? ha hb]
  rw [if_neg hjb, if_neg hja]

theorem swapList_comm {l : List Nat} {a b : Nat} (hab : a ≠ b) :
    swapList l a b = swapList l b a := by
  unfold swapList
  rw [List.set_comm _ _ _ hab]

theorem swapList_swapList {l : List Nat} {a b : Nat} (hab : a ≠ b)
    (ha : a < l.length) (hb : b < l.length) :
    swapList (swapList l a b) b a = l := by
  have hb1 : b < (swapList l a b).length := by rw [length_swapList]; exact hb
  have ha1 : a < (swapList l a b).length := by rw [length_swapList]; exact ha
  apply List.ext_getElem?
  intro n
  rw [swapList_getElem? hb1 ha1 n]
  by_cases hna : n = a
  · subst hna
    rw [if_pos rfl, swapList_getElem? ha hb b, if_pos rfl]
  · rw [if_neg hna]
    by_cases hnb : n = b
    · subst hnb
      rw [if_pos rfl, swapList_getElem? ha hb a, if_neg hab, if_pos rfl]
    · rw [if_neg hnb, swapList_getElem? ha hb n, if_neg hnb, if_neg hna]

theorem getD_append_len :
    ∀ (A : List Nat) (x : Nat) (R : List Nat) {n : Nat}, n = A.length →
      (A ++ x :: R).getD n 0 = x := by
  intro A
  induction A with
  | nil => intro x R n hn; subst hn; rfl
  | cons a A ih =>
    intro x R n hn
    subst hn
    simpa using ih x R rfl

theorem set_append_len :
    ∀ (A : List Nat) (x v : Nat) (R : List Nat) {n : Nat}, n = A.length →
      (A ++ x :: R).set n v = A ++ v :: R := by
  intro A
  induction A with
  | nil => intro x v R n hn; subst hn; rfl
  | cons a A ih =>
    intro x v R n hn
    subst hn
    simpa [List.set] using ih x v R rfl

theorem getD_append_right :
    ∀ (A T : List Nat) {n : Nat}, A.length ≤ n →
      (A ++ T).getD n 0 = T.getD (n - A.length) 0 := by
  intro A
  induction A with
  | nil => intro T n _; rfl
  | cons a A ih =>
    intro T n hn
    cases n with
    | zero => simp at hn
    | succ m =>
      have : A.length ≤ m := by simpa using hn
      simpa using ih T this

theorem exists_split (l : List Nat) {a : Nat} (ha : a < l.length) :
    ∃ A R, l = A ++ l.getD a 0 :: R ∧ A.length = a ∧ R.length = l.length - a - 1 := by
  refine ⟨l.take a, l.drop (a + 1), ?_, ?_, ?_⟩
  · conv_lhs => rw [← List.take_append_drop a l]
    rw [List.drop_eq_getElem_cons ha, List.getD_eq_getElem _ _ ha]
  · simpa using Nat.le_of_lt ha
  · simp; omega

theorem swap_decomp {l : List Nat} {a b : Nat} (hab : a < b) (hb : b < l.length) :
    ∃ A M R, l = A ++ l.getD a 0 :: (M ++ l.getD b 0 :: R) ∧ A.length = a ∧
      M.length = b - a - 1 ∧
      swapList l a b = A ++ l.getD b 0 :: (M ++ l.getD a 0 :: R) := by
  have ha : a < l.length := lt_trans hab hb
  obtain ⟨A, T, hl, hA, hT⟩ := exists_split l ha
  have hbT : b - a - 1 < T.length := by omega
  obtain ⟨M, R, hT2, hM, _⟩ := exists_split T hbT
  have hgb : l.getD b 0 = T.getD (b - a - 1) 0 := by
    conv_lhs => rw [hl]
    rw [getD_append_right A _ (by omega)]
    rw [hA]
    have : b - a = (b - a - 1) + 1 := by omega
    rw [this]
    simp
  have hlfull : l = A ++ l.getD a 0 :: (M ++ l.getD b 0 :: R) := by
    rw [hgb, ← hT2, ← hl]
  refine ⟨A, M, R, hlfull, hA, by omega, ?_⟩
  set x := l.getD a 0 with hx
  set y := l.getD b 0 with hy
  unfold swapList
  rw [← hx, ← hy, hlfull]
  rw [set_append_len A _ _ _ hA.symm]
  have hassoc : A ++ y :: (M ++ y :: R) = (A ++ y :: M) ++ y :: R := by simp
  rw [hassoc]
  rw [set_append_len _ _ _ _ (by simp [hA]; omega)]
  simp

theorem swap_perm {l : List Nat} {a b : Nat} (hab : a ≠ b)
    (ha : a < l.length) (hb : b < l.length) :
    (swapList l a b).Perm l := by
  rcases Nat.lt_or_ge a b with h | h
  · obtain ⟨A, M, R, hl, _, _, hswap⟩ := swap_decomp h hb
    rw [hswap]
    conv_rhs => rw [hl]
    apply List.Perm.append_left
    exact (List.perm_middle.cons (l.getD b 0)).trans
      ((List.Perm.swap (l.getD a 0) (l.getD b 0) (M ++ R)).trans
        ((List.perm_middle.symm).cons (l.getD a 0)))
  · have h' : b < a := by omega
    rw [swapList_comm hab]
    obtain ⟨A, M, R, hl, _, _, hswap⟩ := swap_decomp h' ha
    rw [hswap]
    conv_rhs => rw [hl]
    apply List.Perm.append_left
    exact (List.perm_middle.cons (l.getD a 0)).trans
      ((List.Perm.swap (l.getD b 0) (l.getD a 0) (M ++ R)).trans
        ((List.perm_middle.symm).cons (l.getD b 0)))

theorem indexOf_of_first :
    ∀ {l : List Nat} {i : Nat}, i < l.length → l.getD i 0 = 0 →
      (∀ j, j < i → l.getD j 0 ≠ 0) → l.indexOf 0 = i := by
  intro l
  induction l with
  | nil => intro i hi _ _; simp at hi
  | cons x xs ih =>
    intro i hi h0 hprev
    cases i with
    | zero =>
      have hx : x = 0 := by simpa using h0
      subst hx
      simp [List.indexOf_cons]
    | succ m =>
      have hx : x ≠ 0 := by
        have := hprev 0 (Nat.succ_pos m)
        simpa using this
      rw [List.indexOf_cons]
      have : (x == 0) = false := by simp [hx]
      rw [this]
      simp only [cond_false]
      have hm : xs.indexOf 0 = m := by
        apply ih
        · simpa using hi
        · simpa using h0
        · intro j hj
          have := hprev (j + 1) (by omega)
          simpa using this
      omega

theorem valid_length {s : State} (hv : s.Valid) : s.state.length = 9 := by
  have := hv.length_eq
  simpa using this

theorem valid_nodup {s : State} (hv : s.Valid) : s.state.Nodup :=
  hv.nodup_iff.mpr (List.nodup_range 9)

theorem valid_zero_mem {s : State} (hv : s.Valid) : 0 ∈ s.state :=
  hv.mem_iff.mpr (by simp)

theorem valid_indexOf_lt {s : State} (hv : s.Valid) : s.state.indexOf 0 < 9 := by
  have := List.indexOf_lt_length.mpr (valid_zero_mem hv)
  rwa [valid_length hv] at this

theorem valid_getD_indexOf {s : State} (hv : s.Valid) :
    s.state.getD (s.state.indexOf 0) 0 = 0 := by
  have hlt : s.state.indexOf 0 < s.state.length :=
    List.indexOf_lt_length.mpr (valid_zero_mem hv)
  rw [List.getD_eq_getElem _ _ hlt]
  exact List.getElem_indexOf hlt

theorem valid_zero_unique {s : State} (hv : s.Valid) {j : Nat} (hj : j < 9)
    (hne : j ≠ s.state.indexOf 0) : s.state.getD j 0 ≠ 0 := by
  intro hzero
  have hjl : j < s.state.length := by rw [valid_length hv]; exact hj
  have hlt : s.state.indexOf 0 < s.state.length :=
    List.indexOf_lt_length.mpr (valid_zero_mem hv)
  rw [List.getD_eq_getElem _ _ hjl] at hzero
  have h2 : s.state[s.state.indexOf 0] = 0 := List.getElem_indexOf hlt
  have : s.state[j] = s.state[s.state.indexOf 0] := by rw [hzero, h2]
  exact hne (((valid_nodup hv).getElem_inj_iff).mp this)

theorem mem_get_neighbours {s n : State} :
    n ∈ s.get_neighbours ↔
      ∃ i ∈ State.get_tile_neighbours (s.state.indexOf 0),
        n = State.mk (swapList s.state (s.state.indexOf 0) i) := by
  simp only [State.get_neighbours, List.mem_map]
  constructor
  · rintro ⟨i, hi, rfl⟩; exact ⟨i, hi, rfl⟩
  · rintro ⟨i, hi, rfl⟩; exact ⟨i, hi, rfl⟩

theorem move_valid {s n : State} (hv : s.Valid) (hn : n ∈ s.get_neighbours) : n.Valid := by
  obtain ⟨i, hi, rfl⟩ := mem_get_neighbours.mp hn
  obtain ⟨_, hi9, hine, _⟩ := mem_table hi
  have hlen := valid_length hv
  have he9 := valid_indexOf_lt hv
  exact (swap_perm (fun h => hine h.symm) (by omega) (by omega)).trans hv

theorem move_ne {s n : State} (hv : s.Valid) (hn : n ∈ s.get_neighbours) : n ≠ s := by
  obtain ⟨i, hi, rfl⟩ := mem_get_neighbours.mp hn
  obtain ⟨_, hi9, hine, _⟩ := mem_table hi
  have hlen := valid_length hv
  have he9 := valid_indexOf_lt hv
  intro hcontr
  have hstates : swapList s.state (s.state.indexOf 0) i = s.state := congrArg State.state hcontr
  have hgi : (swapList s.state (s.state.indexOf 0) i).getD i 0 = s.state.getD i 0 := by
    rw [hstates]
  rw [getD_swapList_right (by omega) (by omega)] at hgi
  rw [valid_getD_indexOf hv] at hgi
  exact valid_zero_unique hv hi9 hine hgi.symm

theorem move_indexOf {s : State} (hv : s.Valid) {i : Nat}
    (hi : i ∈ State.get_tile_neighbours (s.state.indexOf 0)) :
    (swapList s.state (s.state.indexOf 0) i).indexOf 0 = i := by
  obtain ⟨he9, hi9, hine, _⟩ := mem_table hi
  have hlen := valid_length hv
  apply indexOf_of_first
  · rw [length_swapList, hlen]; exact hi9
  · rw [getD_swapList_right (by omega) (by omega)]
    exact valid_getD_indexOf hv
  · intro j hj
    by_cases hje : j = s.state.indexOf 0
    · subst hje
      rw [getD_swapList_left (by omega) (by omega)]
      exact valid_zero_unique hv hi9 hine
    · rw [getD_swapList_other (by omega) (by omega) hje (by omega)]
      exact valid_zero_unique hv (by omega) hje

theorem neighbours_symmetric {s n : State} (hs : s.Valid) (hn : n ∈ s.get_neighbours) :
    s ∈ n.get_neighbours := by
  obtain ⟨i, hi, rfl⟩ := mem_get_neighbours.mp hn
  obtain ⟨he9, hi9, hine, _⟩ := mem_table hi
  have hlen := valid_length hs
  have hidx : (swapList s.state (s.state.indexOf 0) i).indexOf 0 = i := move_indexOf hs hi
  apply mem_get_neighbours.mpr
  refine ⟨s.state.indexOf 0, ?_, ?_⟩
  · show s.state.indexOf 0 ∈
      State.get_tile_neighbours ((swapList s.state (s.state.indexOf 0) i).indexOf 0)
    rw [hidx]
    exact table_symm_bounded _ he9 _ hi9 hi
  · show s = State.mk
      (swapList (swapList s.state (s.state.indexOf 0) i)
        ((swapList s.state (s.state.indexOf 0) i).indexOf 0) (s.state.indexOf 0))
    rw [hidx]
    rw [swapList_swapList (fun h => hine h.symm) (by omega) (by omega)]

theorem get_neighbours_length (s : State) :
    s.get_neighbours.length = (State.get_tile_neighbours (s.state.indexOf 0)).length := by
  simp [State.get_neighbours]

theorem goal_valid : (State.mk goal_list).Valid := by decide

/-- C6: for every valid `State` `s` and every `n` in `s.get_neighbours()`,
`s` is itself a member of `n.get_neighbours()`: the blank-swap move
relation is symmetric. -/
theorem C6_move_symmetric (s n : State) (hs : s.Valid) (hn : n ∈ s.get_neighbours) :
    s ∈ n.get_neighbours :=
  neighbours_symmetric hs hn

theorem C6_witness :
    (State.mk goal_list).Valid ∧
      State.mk [1, 0, 2, 3, 4, 5, 6, 7, 8] ∈ (State.mk goal_list).get_neighbours ∧
      State.mk goal_list ∈ (State.mk [1, 0, 2, 3, 4, 5, 6, 7, 8]).get_neighbours :=
  ⟨by decide, by decide, C6_move_symmetric _ _ (by decide) (by decide)⟩

/-- C8: for every valid `State`, `get_neighbours` returns exactly 2 states
when the blank is at a corner, 3 at an edge, and 4 at the centre.  (The
source builds each neighbour from a fresh copy of the list; in this pure
embedding the input state is untouched by construction.) -/
theorem C8_neighbour_count (s : State) (hv : s.Valid) :
    (s.state.indexOf 0 ∈ ([0, 2, 6, 8] : List Nat) → s.get_neighbours.length = 2) ∧
    (s.state.indexOf 0 ∈ ([1, 3, 5, 7] : List Nat) → s.get_neighbours.length = 3) ∧
    (s.state.indexOf 0 = 4 → s.get_neighbours.length = 4) := by
  refine ⟨?_, ?_, ?_⟩ <;> intro hmem <;> rw [get_neighbours_length]
  · simp only [List.mem_cons, List.not_mem_nil, or_false] at hmem
    rcases hmem with h | h | h | h <;> rw [h] <;> rfl
  · simp only [List.mem_cons, List.not_mem_nil, or_false] at hmem
    rcases hmem with h | h | h | h <;> rw [h] <;> rfl
  · rw [hmem]; rfl

theorem C8_witness :
    (State.mk goal_list).Valid ∧ (State.mk goal_list).state.indexOf 0 ∈ ([0, 2, 6, 8] : List Nat) ∧
      (State.mk goal_list).get_neighbours.length = 2 :=
  ⟨by decide, by decide, (C8_neighbour_count _ (by decide)).1 (by decide)⟩

/-- C2 counterexample: the claim says construction from a wrong-length
non-permutation fails with `InvalidStateError`; but `__init__` is a bare
assignment, so `State([0,0,0])` succeeds and stores the bad sequence. -/
theorem C2_counterexample :
    State.init [0, 0, 0] = some (State.mk [0, 0, 0]) ∧ ¬ (State.mk [0, 0, 0]).Valid :=
  ⟨rfl, by decide⟩

/-- C2 amended: construction never fails; `__init__` performs no
validation and stores any sequence as-is, so no `InvalidStateError` (or
any error) is ever raised at construction time. -/
theorem C2_amended (tiles : List Nat) : State.init tiles = some (State.mk tiles) := rfl

/-- C7: the entry `heappop` removes from the frontier is minimal in the
lexicographic order on `(f, g, state)` tuples: minimal `f`, ties broken by
smaller `g`, remaining ties by `State.__lt__`'s lexicographic order on the
tile lists; the rest of the frontier is kept (as a multiset), so each
iteration, and hence `a_star`'s output, is a function of its inputs. -/
theorem C7_popMin_least (l : List Entry) (e : Entry) (rest : List Entry)
    (hp : popMin l = some (e, rest)) :
    e ∈ l ∧ l.Perm (e :: rest) ∧
      ∀ x ∈ l, e.1 < x.1 ∨ (e.1 = x.1 ∧ (e.2.1 < x.2.1 ∨ (e.2.1 = x.2.1 ∧
        (listLexLt e.2.2.state x.2.2.state = true ∨ e.2.2.state = x.2.2.state)))) := by
  have hperm := popMin_perm hp
  have hmin := popMin_not_lt hp
  refine ⟨hperm.mem_iff.mpr (List.mem_cons_self e rest), hperm, ?_⟩
  intro x hx
  have hnlt := hmin x hx
  rcases entryLt_trichotomy e x with h | h | h
  · simp only [entryLt, Bool.or_eq_true, Bool.and_eq_true, decide_eq_true_eq] at h
    rcases h with h | ⟨h1, h | ⟨h2, h3⟩⟩
    · left; exact h
    · right; exact ⟨h1, Or.inl h⟩
    · right; exact ⟨h1, Or.inr ⟨h2, Or.inl h3⟩⟩
  · rw [hnlt] at h
    exact absurd h (by simp)
  · subst h
    right; exact ⟨rfl, Or.inr ⟨rfl, Or.inr rfl⟩⟩

theorem C7_witness :
    popMin [(3, 1, State.mk [1]), (2, 5, State.mk [2]), (2, 3, State.mk [0])] =
        some ((2, 3, State.mk [0]), [(3, 1, State.mk [1]), (2, 5, State.mk [2])]) ∧
      ((2, 3, State.mk [0]) ∈
          [(3, 1, State.mk [1]), (2, 5, State.mk [2]), (2, 3, State.mk [0])] ∧
        List.Perm [(3, 1, State.mk [1]), (2, 5, State.mk [2]), (2, 3, State.mk [0])]
          ((2, 3, State.mk [0]) :: [(3, 1, State.mk [1]), (2, 5, State.mk [2])]) ∧
        ∀ x ∈ [(3, 1, State.mk [1]), (2, 5, State.mk [2]), (2, 3, State.mk [0])],
          (2, 3, State.mk [0]).1 < x.1 ∨ ((2, 3, State.mk [0]).1 = x.1 ∧
            ((2, 3, State.mk [0]).2.1 < x.2.1 ∨ ((2, 3, State.mk [0]).2.1 = x.2.1 ∧
              (listLexLt (2, 3, State.mk [0]).2.2.state x.2.2.state = true ∨
                (2, 3, State.mk [0]).2.2.state = x.2.2.state))))) :=
  ⟨by rfl, C7_popMin_least _ _ _ (by rfl)⟩

theorem step_done_shape (h : State → State → Nat) (start target : State) (fr : Frontier)
    (r : Option (List State) × Nat × Nat) (hstep : aStarStep h start target fr = .done r) :
    r = (none, 0, fr.nodes_expanded) ∨
      ∃ path, r = (some path, path.length - 1, fr.nodes_expanded) := by
  unfold aStarStep at hstep
  cases hpop : popMin fr.open_set with
  | none =>
    rw [hpop] at hstep
    dsimp only at hstep
    left
    cases hstep
    rfl
  | some pr =>
    rcases pr with ⟨⟨f, g, cur⟩, rest⟩
    rw [hpop] at hstep
    dsimp only at hstep
    by_cases h1 : cur ∈ fr.closed_set
    · rw [if_pos h1] at hstep
      cases hstep
    · rw [if_neg h1] at hstep
      by_cases h2 : cur = target
      · rw [if_pos h2] at hstep
        right
        cases hstep
        exact ⟨_, rfl⟩
      · rw [if_neg h2] at hstep
        cases hstep

/-- C9: whenever the search loop returns without a solution (the frontier
emptied), the returned triple is exactly `(none, 0, nodes_expanded)`: the
steps component is the literal 0 of `return None, 0, nodes_expanded`,
never the length of a partial search. -/
theorem C9_no_solution_steps_zero (h : State → State → Nat) (start target : State)
    (fuel : Nat) (fr : Frontier) (p : Option (List State)) (st n : Nat)
    (hrun : aStarLoop h start target fuel fr = some (p, st, n)) (hp : p = none) : st = 0 := by
  subst hp
  induction fuel generalizing fr with
  | zero => simp [aStarLoop] at hrun
  | succ f ih =>
    rw [aStarLoop] at hrun
    cases hstep : aStarStep h start target fr with
    | done r =>
      rw [hstep] at hrun
      simp only [Option.some.injEq] at hrun
      rcases step_done_shape h start target fr r hstep with hshape | ⟨path, hshape⟩
      · rw [hshape] at hrun
        exact (congrArg (fun t => t.2.1) hrun.symm : st = 0)
      · rw [hshape] at hrun
        have : some path = none := congrArg (fun t => t.1) hrun
        cases this
    | next fr' =>
      rw [hstep] at hrun
      exact ih fr' hrun

theorem C9_witness :
    aStarLoop (fun _ _ => 0) (State.mk goal_list) (State.mk goal_list) 1
        ⟨[], [], [], [], 5⟩ = some (none, 0, 5) ∧ (0 : Nat) = 0 :=
  ⟨rfl, C9_no_solution_steps_zero (fun _ _ => 0) (State.mk goal_list) (State.mk goal_list) 1
    ⟨[], [], [], [], 5⟩ none 0 5 rfl rfl⟩

/-- C10: for every valid state `s`, any heuristic and any positive fuel,
searching from `s` for `s` itself returns the single-element path `[s]`,
0 steps and 0 expanded nodes: the goal test on the popped entry precedes
expansion and closed-set insertion. -/
theorem C10_a_star_self (s : State) (h : State → State → Nat) (hv : s.Valid) (fuel : Nat)
    (hf : 1 ≤ fuel) : State.a_star s s h fuel = some (some [s], 0, 0) := by
  obtain ⟨f, rfl⟩ : ∃ f, fuel = f + 1 := ⟨fuel - 1, by omega⟩
  simp [State.a_star, aStarLoop, aStarStep, popMin, backtrack, findVal]

theorem manhattan_pos {i p : Nat} (hne : i ≠ p) : 1 ≤ State.calc_manhattan_dist i p := by
  unfold State.calc_manhattan_dist
  omega

theorem getD_mem {l : List Nat} {i : Nat} (hi : i < l.length) : l.getD i 0 ∈ l := by
  rw [List.getD_eq_getElem _ _ hi]
  exact List.getElem_mem hi

theorem misplaced_le_manhattan (s t : State) (hs : s.Valid) (ht : t.Valid) :
    State.num_misplaced_tiles s t ≤ State.sum_manhattan_dists s t := by
  unfold State.num_misplaced_tiles State.sum_manhattan_dists
  apply List.sum_le_sum
  intro i hi
  have hi9 : i < 9 := List.mem_range.mp hi
  by_cases hcond : s.state.getD i 0 ≠ t.state.getD i 0 ∧ s.state.getD i 0 ≠ 0
  · rw [if_pos hcond, if_pos hcond.2]
    apply manhattan_pos
    intro heq
    have hvmem : s.state.getD i 0 ∈ t.state := by
      have h1 : s.state.getD i 0 ∈ s.state := getD_mem (by rw [valid_length hs]; exact hi9)
      exact ht.mem_iff.mpr (hs.mem_iff.mp h1)
    have hlt : t.state.indexOf (s.state.getD i 0) < t.state.length :=
      List.indexOf_lt_length.mpr hvmem
    have hval : t.state.getD (t.state.indexOf (s.state.getD i 0)) 0 = s.state.getD i 0 := by
      rw [List.getD_eq_getElem _ _ hlt]
      exact List.getElem_indexOf hlt
    rw [← heq] at hval
    exact hcond.1 hval.symm
  · rw [if_neg hcond]
    exact Nat.zero_le _

/-- C3: the heuristic dominance chain: for all valid states and targets,
`h1 ≤ h2` (each misplaced non-blank tile is at Manhattan distance at least
1 from its target cell) and `h2 ≤ h3` (`linear_conflicts` is
`2 * conflicts + sum_manhattan_dists`). -/
theorem C3_heuristic_dominance (s t : State) (hs : s.Valid) (ht : t.Valid) :
    State.num_misplaced_tiles s t ≤ State.sum_manhattan_dists s t ∧
      State.sum_manhattan_dists s t ≤ State.linear_conflicts s t := by
  refine ⟨misplaced_le_manhattan s t hs ht, ?_⟩
  unfold State.linear_conflicts
  exact Nat.le_add_left _ _

theorem C3_witness :
    (State.mk init_list).Valid ∧ (State.mk goal_list).Valid ∧
      (State.num_misplaced_tiles (State.mk init_list) (State.mk goal_list) ≤
          State.sum_manhattan_dists (State.mk init_list) (State.mk goal_list) ∧
        State.sum_manhattan_dists (State.mk init_list) (State.mk goal_list) ≤
          State.linear_conflicts (State.mk init_list) (State.mk goal_list)) :=
  ⟨by decide, by decide, C3_heuristic_dominance _ _ (by decide) (by decide)⟩

theorem countP_range_getD (l : List Nat) (p : Nat → Bool) :
    (List.range l.length).countP (fun i => p (l.getD i 0)) = l.countP p := by
  induction l with
  | nil => rfl
  | cons x xs ih =>
    rw [List.length_cons, List.range_succ_eq_map, List.countP_cons, List.countP_map]
    have hcomp : (List.range xs.length).countP ((fun i => p ((x :: xs).getD i 0)) ∘ Nat.succ) =
        (List.range xs.length).countP (fun i => p (xs.getD i 0)) := by
      apply List.countP_congr
      intro a _
      simp [Function.comp]
    rw [hcomp, ih, List.countP_cons]
    simp

theorem pairInversions_cons (x : Nat) (xs : List Nat) :
    pairInversions (x :: xs) = xs.countP (fun y => decide (y < x)) + pairInversions xs := by
  unfold pairInversions
  rw [List.length_cons, List.range_succ_eq_map]
  rw [List.map_cons, List.sum_cons, List.map_map]
  congr 1
  · rw [List.countP_cons, List.countP_map]
    have hz : (decide (0 < 0 ∧ (x :: xs).getD 0 0 < (x :: xs).getD 0 0)) = false := by simp
    rw [hz]
    simp only [Bool.false_eq_true, if_false, Nat.add_zero]
    have hfun : ((fun j => decide (0 < j ∧ (x :: xs).getD j 0 < (x :: xs).getD 0 0)) ∘
        Nat.succ) = (fun i => (fun y => decide (y < x)) (xs.getD i 0)) := by
      funext j
      simp only [Function.comp, List.getD_cons_succ, List.getD_cons_zero]
      exact decide_eq_decide.mpr (by omega)
    rw [hfun, countP_range_getD xs (fun y => decide (y < x))]
  · apply congrArg
    apply List.map_congr_left
    intro k hk
    simp only [Function.comp]
    rw [List.countP_cons, List.countP_map]
    have hz : (decide (k + 1 < 0 ∧ (x :: xs).getD 0 0 < (x :: xs).getD (k + 1) 0)) = false := by
      simp
    rw [hz]
    simp only [Bool.false_eq_true, if_false, Nat.add_zero]
    apply List.countP_congr
    intro a _
    simp only [Function.comp, List.getD_cons_succ]
    constructor
    · intro h
      have := of_decide_eq_true h
      exact decide_eq_true (by omega : k < a ∧ xs.getD a 0 < xs.getD k 0)
    · intro h
      have := of_decide_eq_true h
      exact decide_eq_true (by omega : k + 1 < a + 1 ∧ xs.getD a 0 < xs.getD k 0)

theorem countInv_eq_pairInversions (l : List Nat) : countInv l = pairInversions l := by
  induction l with
  | nil => rfl
  | cons x xs ih =>
    rw [pairInversions_cons, countInv, ih]

/-- C4: `is_solvable` returns true exactly when the number of
index-ordered inversion pairs of the 8-element sequence obtained by
dropping the blank tile is even, and it returns true on the canonical
goal `[0,1,2,3,4,5,6,7,8]`. -/
theorem C4_is_solvable_parity (s : State) (hv : s.Valid) :
    (s.is_solvable = true ↔
        pairInversions (s.state.filter (fun t => decide (t ≠ 0))) % 2 = 0) ∧
      (s.state.filter (fun t => decide (t ≠ 0))).length = 8 ∧
      (State.mk goal_list).is_solvable = true := by
  refine ⟨?_, ?_, by decide⟩
  · unfold State.is_solvable
    rw [← countInv_eq_pairInversions]
    simp
  · have hperm := hv.filter (fun t => decide (t ≠ 0))
    rw [hperm.length_eq]
    rfl

theorem C4_witness :
    (State.mk init_list).Valid ∧
      ((State.mk init_list).is_solvable = true ↔
          pairInversions ((State.mk init_list).state.filter (fun t => decide (t ≠ 0))) % 2 = 0) ∧
      ((State.mk init_list).state.filter (fun t => decide (t ≠ 0))).length = 8 ∧
      (State.mk goal_list).is_solvable = true :=
  ⟨by decide, C4_is_solvable_parity _ (by decide)⟩

theorem C10_witness :
    (State.mk goal_list).Valid ∧ (1 : Nat) ≤ 1 ∧
      State.a_star (State.mk goal_list) (State.mk goal_list) State.num_misplaced_tiles 1 =
        some (some [State.mk goal_list], 0, 0) :=
  ⟨by decide, le_refl 1, C10_a_star_self _ _ (by decide) 1 (le_refl 1)⟩

theorem a_star_smoke :
    State.a_star ⟨goal_list⟩ ⟨goal_list⟩ State.num_misplaced_tiles 1 =
      some (some [⟨goal_list⟩], 0, 0) := by rfl

theorem cross_cons_left (x : Nat) (X Y : List Nat) :
    cross (x :: X) Y = Y.countP (fun y => decide (y < x)) + cross X Y := by
  simp [cross]

theorem countInv_append (X Y : List Nat) :
    countInv (X ++ Y) = countInv X + cross X Y + countInv Y := by
  induction X with
  | nil => simp [countInv, cross]
  | cons x X ih =>
    simp only [List.cons_append, countInv, List.countP_append, cross_cons_left,
      List.append_eq] at ih ⊢
    omega

theorem cross_perm_right (X : List Nat) {Y Y' : List Nat} (h : Y.Perm Y') :
    cross X Y = cross X Y' := by
  unfold cross
  apply congrArg
  apply List.map_congr_left
  intro x _
  exact h.countP_eq _

theorem cross_cons_right (X : List Nat) (v : Nat) (C : List Nat) :
    cross X (v :: C) = X.countP (fun x => decide (v < x)) + cross X C := by
  induction X with
  | nil => rfl
  | cons x X ih =>
    rw [cross_cons_left, cross_cons_left, List.countP_cons, List.countP_cons, ih]
    omega

theorem countP_complement {B : List Nat} {v : Nat} (h : ∀ b ∈ B, b ≠ v) :
    B.countP (fun b => decide (v < b)) + B.countP (fun b => decide (b < v)) = B.length := by
  induction B with
  | nil => rfl
  | cons b B ih =>
    have hb : b ≠ v := h b (List.mem_cons_self b B)
    have ih' := ih (fun x hx => h x (List.mem_cons_of_mem b hx))
    simp only [List.countP_cons, List.length_cons]
    have hone : ((if decide (v < b) = true then 1 else 0) : Nat) +
        (if decide (b < v) = true then 1 else 0) = 1 := by
      rcases Nat.lt_trichotomy v b with h1 | h1 | h1
      · have h2 : ¬ b < v := by omega
        simp [h1, h2]
      · exact absurd h1.symm hb
      · have h2 : ¬ v < b := by omega
        simp [h1, h2]
    omega

theorem countInv_move (A B C : List Nat) (v : Nat) (hv : ∀ b ∈ B, b ≠ v)
    (hB : B.length % 2 = 0) :
    countInv (A ++ (B ++ v :: C)) % 2 = countInv (A ++ (v :: (B ++ C))) % 2 := by
  have e1 : countInv (A ++ (B ++ v :: C)) =
      countInv A + cross A (B ++ v :: C) +
        (countInv B + cross B (v :: C) + countInv (v :: C)) := by
    rw [countInv_append, countInv_append]
  have e2 : countInv (A ++ (v :: (B ++ C))) =
      countInv A + cross A (v :: (B ++ C)) + countInv (v :: (B ++ C)) := countInv_append _ _
  have e3 : cross A (B ++ v :: C) = cross A (v :: (B ++ C)) := cross_perm_right A List.perm_middle
  have e4 : cross B (v :: C) = B.countP (fun x => decide (v < x)) + cross B C :=
    cross_cons_right B v C
  have e5 : countInv (v :: C) = C.countP (fun y => decide (y < v)) + countInv C := rfl
  have e6 : countInv (v :: (B ++ C)) =
      (B ++ C).countP (fun y => decide (y < v)) + countInv (B ++ C) := rfl
  have e7 : (B ++ C).countP (fun y => decide (y < v)) =
      B.countP (fun y => decide (y < v)) + C.countP (fun y => decide (y < v)) := by
    rw [List.countP_append]
  have e8 : countInv (B ++ C) = countInv B + cross B C + countInv C := countInv_append B C
  have hcompl : B.countP (fun x => decide (v < x)) + B.countP (fun y => decide (y < v)) =
      B.length := countP_complement hv
  omega

theorem solvable_eq_of_decomp {l l' : List Nat} {A M R : List Nat} {v : Nat}
    (hl : l = A ++ 0 :: (M ++ v :: R)) (hl' : l' = A ++ v :: (M ++ 0 :: R))
    (hvne : v ≠ 0) (hc : l.count 0 = 1) (hnd : l.Nodup) (hM : M.length % 2 = 0) :
    (countInv (l'.filter (fun t => decide (t ≠ 0))) % 2 == 0) =
      (countInv (l.filter (fun t => decide (t ≠ 0))) % 2 == 0) := by
  subst hl
  subst hl'
  have hzero : 0 ∉ A ∧ 0 ∉ M ∧ 0 ∉ R := by
    rw [List.count_append, List.count_cons, List.count_append, List.count_cons] at hc
    have hite0 : ((if ((0 : Nat) == 0) = true then 1 else 0) : Nat) = 1 := by simp
    have hitev : ((if (v == 0) = true then 1 else 0) : Nat) = 0 := by simp [hvne]
    rw [hite0, hitev] at hc
    refine ⟨List.count_eq_zero.mp (by omega), List.count_eq_zero.mp (by omega),
      List.count_eq_zero.mp (by omega)⟩
  obtain ⟨hzA, hzM, hzR⟩ := hzero
  have hfA : A.filter (fun t => decide (t ≠ 0)) = A :=
    List.filter_eq_self.mpr (fun a ha => decide_eq_true (fun h => hzA (h ▸ ha)))
  have hfM : M.filter (fun t => decide (t ≠ 0)) = M :=
    List.filter_eq_self.mpr (fun a ha => decide_eq_true (fun h => hzM (h ▸ ha)))
  have hfR : R.filter (fun t => decide (t ≠ 0)) = R :=
    List.filter_eq_self.mpr (fun a ha => decide_eq_true (fun h => hzR (h ▸ ha)))
  have hfv : (decide (v ≠ 0)) = true := decide_eq_true hvne
  have hf0 : (decide ¬(0 : Nat) = 0) = false := by simp
  have hfl : (A ++ 0 :: (M ++ v :: R)).filter (fun t => decide (t ≠ 0)) =
      A ++ (M ++ v :: R) := by
    rw [List.filter_append, List.filter_cons, List.filter_append, List.filter_cons]
    simp only [hf0, hfv, if_true, if_false, Bool.false_eq_true]
    rw [hfA, hfM, hfR]
  have hfl' : (A ++ v :: (M ++ 0 :: R)).filter (fun t => decide (t ≠ 0)) =
      A ++ (v :: (M ++ R)) := by
    rw [List.filter_append, List.filter_cons, List.filter_append, List.filter_cons]
    simp only [hf0, hfv, if_true, if_false, Bool.false_eq_true]
    rw [hfA, hfM, hfR]
  have hvM : v ∉ M := by
    have h1 : (M ++ v :: R).Nodup := (hnd.of_append_right).of_cons
    intro hmem
    rw [List.nodup_append] at h1
    exact h1.2.2 hmem (List.mem_cons_self v R)
  have hmove := countInv_move A M R v (fun b hb hbv => hvM (hbv ▸ hb)) hM
  rw [hfl, hfl']
  rw [← hmove]

theorem move_solvable {s n : State} (hv : s.Valid) (hn : n ∈ s.get_neighbours) :
    n.is_solvable = s.is_solvable := by
  obtain ⟨i, hi, rfl⟩ := mem_get_neighbours.mp hn
  set e := s.state.indexOf 0 with he
  obtain ⟨he9, hi9, hine, hdiff⟩ := mem_table hi
  have hlen := valid_length hv
  have h0 : s.state.getD e 0 = 0 := valid_getD_indexOf hv
  have hnd : s.state.Nodup := valid_nodup hv
  have hcount : s.state.count 0 = 1 := by
    rw [hv.count_eq 0]
    rfl
  have hvne : s.state.getD i 0 ≠ 0 := valid_zero_unique hv hi9 hine
  unfold State.is_solvable
  show (countInv ((swapList s.state e i).filter (fun t => decide (t ≠ 0))) % 2 == 0) =
      (countInv (s.state.filter (fun t => decide (t ≠ 0))) % 2 == 0)
  rcases hdiff with ⟨hei, hd⟩ | ⟨hie, hd⟩
  · obtain ⟨A, M, R, hl, hA, hM, hswap⟩ := swap_decomp hei (show i < s.state.length by omega)
    rw [h0] at hl hswap
    exact solvable_eq_of_decomp hl hswap hvne hcount hnd (by omega)
  · have hcomm : swapList s.state e i = swapList s.state i e :=
      swapList_comm (fun h => hine h.symm)
    obtain ⟨A, M, R, hl, hA, hM, hswap⟩ := swap_decomp hie (show e < s.state.length by omega)
    rw [h0] at hl hswap
    have hp : (swapList s.state i e).Perm s.state :=
      swap_perm hine (by omega) (by omega)
    have hc2 : (swapList s.state i e).count 0 = 1 := by
      rw [hp.count_eq 0]
      exact hcount
    have hnd2 : (swapList s.state i e).Nodup := hp.nodup_iff.mpr hnd
    have hres := solvable_eq_of_decomp hswap hl hvne hc2 hnd2 (by omega)
    rw [hcomm]
    exact hres.symm

theorem reach_valid {s t : State} (hv : s.Valid) (hr : Reachable s t) : t.Valid := by
  induction hr with
  | refl => exact hv
  | tail _ hmov ih => exact move_valid ih hmov

theorem reach_solvable {s t : State} (hv : s.Valid) (hr : Reachable s t) :
    t.is_solvable = s.is_solvable := by
  induction hr with
  | refl => rfl
  | tail hr2 hmov ih =>
    rename_i b c
    rw [move_solvable (reach_valid hv hr2) hmov, ih]

theorem not_reachable_of_parity {s t : State} (hv : s.Valid)
    (hpar : s.is_solvable ≠ t.is_solvable) : ¬ Reachable s t :=
  fun hr => hpar (reach_solvable hv hr).symm

theorem findVal_cons {α : Type} (k : State) (v : α) (d : List (State × α)) (s : State) :
    findVal ((k, v) :: d) s = if s = k then some v else findVal d s := rfl

theorem mem_stOf {os : List Entry} {e : Entry} (he : e ∈ os) : e.2.2 ∈ stOf os :=
  List.mem_map.mpr ⟨e, he, rfl⟩

theorem stOf_mono {os1 os2 : List Entry} (h : ∀ x ∈ os1, x ∈ os2) {a : State}
    (ha : a ∈ stOf os1) : a ∈ stOf os2 := by
  obtain ⟨e, he, rfl⟩ := List.mem_map.mp ha
  exact List.mem_map.mpr ⟨e, h e he, rfl⟩

theorem backtrack_chain
    (cf : List (State × State)) (gs : List (State × Nat)) (start : State)
    (hadj : ∀ a p, findVal cf a = some p → a ∈ p.get_neighbours)
    (hgsp : ∀ a p, findVal cf a = some p →
      ∃ ga gp, findVal gs a = some ga ∧ findVal gs p = some gp ∧ gp < ga)
    (hkeys : ∀ a, findVal gs a ≠ none → a = start ∨ findVal cf a ≠ none) :
    ∀ gn s fuel, findVal gs s = some gn → gn < fuel →
      List.Chain' (fun a b => a ∈ b.get_neighbours) (backtrack cf fuel s ++ [start]) ∧
      ((backtrack cf fuel s = [] ∧ s = start) ∨
        ∃ rest, backtrack cf fuel s = s :: rest) := by
  intro gn
  induction gn using Nat.strong_induction_on with
  | _ gn ih =>
    intro s fuel hs hfuel
    obtain ⟨f, rfl⟩ : ∃ f, fuel = f + 1 := ⟨fuel - 1, by omega⟩
    cases hcf : findVal cf s with
    | none =>
      have hbt : backtrack cf (f + 1) s = [] := by simp [backtrack, hcf]
      have hstart : s = start := by
        rcases hkeys s (by rw [hs]; exact fun hh => Option.noConfusion hh) with h | h
        · exact h
        · exact absurd hcf h
      rw [hbt]
      exact ⟨List.chain'_singleton start, Or.inl ⟨rfl, hstart⟩⟩
    | some p =>
      obtain ⟨ga, gp, hga, hgp, hlt⟩ := hgsp s p hcf
      have hga' : ga = gn := by
        rw [hga] at hs
        exact Option.some.inj hs
      subst hga'
      have hrec := ih gp hlt p f hgp (by omega)
      have hbt : backtrack cf (f + 1) s = s :: backtrack cf f p := by simp [backtrack, hcf]
      rw [hbt]
      constructor
      · rw [List.cons_append]
        apply List.chain'_cons'.mpr
        refine ⟨?_, hrec.1⟩
        intro b hb
        rcases hrec.2 with ⟨hnil, hps⟩ | ⟨rest, hr⟩
        · rw [hnil] at hb
          simp only [List.nil_append, List.head?_cons, Option.mem_def,
            Option.some.injEq] at hb
          rw [← hb, ← hps]
          exact hadj s p hcf
        · rw [hr] at hb
          simp only [List.cons_append, List.head?_cons, Option.mem_def,
            Option.some.injEq] at hb
          rw [← hb]
          exact hadj s p hcf
      · exact Or.inr ⟨_, rfl⟩

theorem relax_insert (h : State → State → Nat) (target start cur : State) (g : Nat)
    (closed : List State) (os : List Entry) (cf : List (State × State))
    (gs : List (State × Nat)) (nb : State)
    (hnbv : nb.Valid) (hnbr : Reachable start nb) (hnbc : nb ∈ cur.get_neighbours)
    (hnbne : nb ≠ cur) (hinv : RelaxInv start cur g closed os cf gs)
    (hcond : findVal gs nb = none ∨ ∃ gn, findVal gs nb = some gn ∧ g + 1 < gn) :
    RelaxInv start cur g closed ((g + 1 + h nb target, g + 1, nb) :: os)
      ((nb, cur) :: cf) ((nb, g + 1) :: gs) := by
  have hnbstart : nb ≠ start := by
    intro hns
    rw [hns] at hcond
    rcases hcond with hnone | ⟨gn, hgn, hlt⟩
    · rw [hinv.gs_start] at hnone
      exact Option.noConfusion hnone
    · rw [hinv.gs_start] at hgn
      have := Option.some.inj hgn
      omega
  have hcurnb : cur ≠ nb := fun hh => hnbne hh.symm
  have hfB : findVal ((nb, g + 1) :: gs) nb = some (g + 1) := by simp [findVal_cons]
  refine ⟨?_, ?_, ?_, ?_, ?_, ?_, ?_, ?_, ?_, ?_, ?_, ?_, ?_⟩
  · intro e he
    rcases List.mem_cons.mp he with rfl | he'
    · exact hnbv
    · exact hinv.open_valid e he'
  · intro e he
    rcases List.mem_cons.mp he with rfl | he'
    · exact hnbr
    · exact hinv.open_reach e he'
  · intro a p hap
    rw [findVal_cons] at hap
    by_cases ha : a = nb
    · rw [if_pos ha] at hap
      have hp : p = cur := (Option.some.inj hap).symm
      rw [ha, hp]
      exact hnbc
    · rw [if_neg ha] at hap
      exact hinv.cf_adj a p hap
  · intro a p hap
    rw [findVal_cons] at hap
    by_cases ha : a = nb
    · have hp : p = cur := by
        rw [if_pos ha] at hap
        exact (Option.some.inj hap).symm
      obtain ⟨gc, hgc, hgcle⟩ := hinv.gs_cur
      refine ⟨g + 1, gc, ?_, ?_, by omega⟩
      · rw [ha]
        exact hfB
      · rw [hp, findVal_cons, if_neg hcurnb]
        exact hgc
    · rw [if_neg ha] at hap
      obtain ⟨ga, gp, hga, hgp, hlt'⟩ := hinv.cf_gs a p hap
      by_cases hpnb : p = nb
      · subst hpnb
        rcases hcond with hnone | ⟨gn, hgn, hlt2⟩
        · rw [hnone] at hgp
          exact absurd hgp (by simp)
        · rw [hgn] at hgp
          have hgpgn : gn = gp := Option.some.inj hgp
          refine ⟨ga, g + 1, ?_, hfB, by omega⟩
          rw [findVal_cons, if_neg ha]
          exact hga
      · refine ⟨ga, gp, ?_, ?_, hlt'⟩
        · rw [findVal_cons, if_neg ha]
          exact hga
        · rw [findVal_cons, if_neg hpnb]
          exact hgp
  · rw [findVal_cons, if_neg (fun hh => hnbstart hh.symm)]
    exact hinv.cf_start
  · rw [findVal_cons, if_neg (fun hh => hnbstart hh.symm)]
    exact hinv.gs_start
  · intro a ha
    by_cases hanb : a = nb
    · right
      rw [findVal_cons, if_pos hanb]
      simp
    · rw [findVal_cons, if_neg hanb] at ha
      rcases hinv.gs_cf a ha with hcase | hcase
      · left; exact hcase
      · right
        rw [findVal_cons, if_neg hanb]
        exact hcase
  · intro a ha
    by_cases hanb : a = nb
    · right
      rw [hanb]
      exact mem_stOf (List.mem_cons_self _ _)
    · rw [findVal_cons, if_neg hanb] at ha
      rcases hinv.gs_mem a ha with hcase | hcase
      · left; exact hcase
      · right
        exact stOf_mono (fun x hx => List.mem_cons_of_mem _ hx) hcase
  · intro e he
    rcases List.mem_cons.mp he with rfl | he'
    · exact ⟨g + 1, hfB, le_refl _⟩
    · obtain ⟨g0, hg0, hle⟩ := hinv.open_gs e he'
      by_cases henb : e.2.2 = nb
      · rcases hcond with hnone | ⟨gn, hgn, hlt2⟩
        · rw [henb, hnone] at hg0
          exact absurd hg0 (by simp)
        · rw [henb, hgn] at hg0
          have hg0gn : gn = g0 := Option.some.inj hg0
          refine ⟨g + 1, ?_, by omega⟩
          rw [henb]
          exact hfB
      · refine ⟨g0, ?_, hle⟩
        rw [findVal_cons, if_neg henb]
        exact hg0
  · intro a g0 hg0
    rw [findVal_cons] at hg0
    rw [List.length_cons]
    by_cases hanb : a = nb
    · rw [if_pos hanb] at hg0
      have := Option.some.inj hg0
      have hgb := hinv.g_bound
      omega
    · rw [if_neg hanb] at hg0
      have := hinv.gs_bound a g0 hg0
      omega
  · intro e he
    rw [List.length_cons]
    rcases List.mem_cons.mp he with rfl | he'
    · have hgb := hinv.g_bound
      simp only
      omega
    · have := hinv.open_g_bound e he'
      omega
  · rw [List.length_cons]
    have := hinv.g_bound
    omega
  · obtain ⟨gc, hgc, hgcle⟩ := hinv.gs_cur
    refine ⟨gc, ?_, hgcle⟩
    rw [findVal_cons, if_neg hcurnb]
    exact hgc

theorem relax_one (h : State → State → Nat) (target start cur : State) (g : Nat)
    (closed : List State) (os : List Entry) (cf : List (State × State))
    (gs : List (State × Nat)) (nb : State)
    (hnbv : nb.Valid) (hnbr : Reachable start nb) (hnbc : nb ∈ cur.get_neighbours)
    (hnbne : nb ≠ cur) (hinv : RelaxInv start cur g closed os cf gs) :
    RelaxInv start cur g closed (relax h target cur g closed (os, cf, gs) nb).1
        (relax h target cur g closed (os, cf, gs) nb).2.1
        (relax h target cur g closed (os, cf, gs) nb).2.2 ∧
      (nb ∈ closed ∨ nb ∈ stOf (relax h target cur g closed (os, cf, gs) nb).1) ∧
      (∀ x ∈ os, x ∈ (relax h target cur g closed (os, cf, gs) nb).1) ∧
      (relax h target cur g closed (os, cf, gs) nb).1.length ≤ os.length + 1 ∧
      cf.length ≤ (relax h target cur g closed (os, cf, gs) nb).2.1.length := by
  by_cases hc : nb ∈ closed
  · have hr : relax h target cur g closed (os, cf, gs) nb = (os, cf, gs) := by
      simp [relax, hc]
    rw [hr]
    exact ⟨hinv, Or.inl hc, fun x hx => hx,
      by show os.length ≤ os.length + 1; omega, le_refl _⟩
  · cases hgs : findVal gs nb with
    | none =>
      have hr : relax h target cur g closed (os, cf, gs) nb =
          ((g + 1 + h nb target, g + 1, nb) :: os, (nb, cur) :: cf, (nb, g + 1) :: gs) := by
        simp [relax, hc, hgs]
      rw [hr]
      refine ⟨relax_insert h target start cur g closed os cf gs nb hnbv hnbr hnbc hnbne hinv
        (Or.inl hgs), ?_, ?_, ?_, ?_⟩
      · right
        exact mem_stOf (List.mem_cons_self _ _)
      · exact fun x hx => List.mem_cons_of_mem _ hx
      · simp
      · simp
    | some gn =>
      by_cases hlt : g + 1 < gn
      · have hr : relax h target cur g closed (os, cf, gs) nb =
            ((g + 1 + h nb target, g + 1, nb) :: os, (nb, cur) :: cf, (nb, g + 1) :: gs) := by
          simp [relax, hc, hgs, hlt]
        rw [hr]
        refine ⟨relax_insert h target start cur g closed os cf gs nb hnbv hnbr hnbc hnbne hinv
          (Or.inr ⟨gn, hgs, hlt⟩), ?_, ?_, ?_, ?_⟩
        · right
          exact mem_stOf (List.mem_cons_self _ _)
        · exact fun x hx => List.mem_cons_of_mem _ hx
        · simp
        · simp
      · have hr : relax h target cur g closed (os, cf, gs) nb = (os, cf, gs) := by
          simp [relax, hc, hgs, hlt]
        rw [hr]
        refine ⟨hinv, ?_, fun x hx => hx,
          by show os.length ≤ os.length + 1; omega, le_refl _⟩
        rcases hinv.gs_mem nb (by rw [hgs]; simp) with hcase | hcase
        · left; exact hcase
        · right; exact hcase

theorem relax_fold (h : State → State → Nat) (target start cur : State) (g : Nat)
    (closed : List State) :
    ∀ (ns : List State) (os : List Entry) (cf : List (State × State))
      (gs : List (State × Nat)),
      RelaxInv start cur g closed os cf gs →
      (∀ nb ∈ ns, nb.Valid ∧ Reachable start nb ∧ nb ∈ cur.get_neighbours ∧ nb ≠ cur) →
      RelaxInv start cur g closed (ns.foldl (relax h target cur g closed) (os, cf, gs)).1
          (ns.foldl (relax h target cur g closed) (os, cf, gs)).2.1
          (ns.foldl (relax h target cur g closed) (os, cf, gs)).2.2 ∧
        (∀ nb ∈ ns,
          nb ∈ closed ∨ nb ∈ stOf (ns.foldl (relax h target cur g closed) (os, cf, gs)).1) ∧
        (∀ x ∈ os, x ∈ (ns.foldl (relax h target cur g closed) (os, cf, gs)).1) ∧
        (ns.foldl (relax h target cur g closed) (os, cf, gs)).1.length ≤
          os.length + ns.length ∧
        cf.length ≤ (ns.foldl (relax h target cur g closed) (os, cf, gs)).2.1.length := by
  intro ns
  induction ns with
  | nil =>
    intro os cf gs hinv _
    exact ⟨hinv, by simp, fun x hx => hx, by simp, le_refl _⟩
  | cons nb ns ih =>
    intro os cf gs hinv hns
    obtain ⟨hv1, hr1, hc1, hne1⟩ := hns nb (List.mem_cons_self _ _)
    have h1 := relax_one h target start cur g closed os cf gs nb hv1 hr1 hc1 hne1 hinv
    rw [List.foldl_cons]
    have h2 := ih (relax h target cur g closed (os, cf, gs) nb).1
      (relax h target cur g closed (os, cf, gs) nb).2.1
      (relax h target cur g closed (os, cf, gs) nb).2.2 h1.1
      (fun x hx => hns x (List.mem_cons_of_mem _ hx))
    refine ⟨h2.1, ?_, ?_, ?_, ?_⟩
    · intro x hx
      rcases List.mem_cons.mp hx with rfl | hx'
      · rcases h1.2.1 with hcl | hos
        · left; exact hcl
        · right; exact stOf_mono h2.2.2.1 hos
      · exact h2.2.1 x hx'
    · intro x hx
      exact h2.2.2.1 x (h1.2.2.1 x hx)
    · have l1 := h1.2.2.2.1
      have l2 : (ns.foldl (relax h target cur g closed)
          (relax h target cur g closed (os, cf, gs) nb)).1.length ≤
          (relax h target cur g closed (os, cf, gs) nb).1.length + ns.length := h2.2.2.2.1
      simp only [List.length_cons]
      omega
    · have c1 := h1.2.2.2.2
      have c2 : (relax h target cur g closed (os, cf, gs) nb).2.1.length ≤
          (ns.foldl (relax h target cur g closed)
            (relax h target cur g closed (os, cf, gs) nb)).2.1.length := h2.2.2.2.2
      omega

theorem closed_le_N (cl : List State) (hnd : cl.Nodup) (hv : ∀ c ∈ cl, c.Valid) :
    cl.length ≤ stateSpaceN := by
  have hinj : Function.Injective State.state := fun a b hh => by
    cases a; cases b; simpa using hh
  have hmap : (cl.map State.state).Nodup := List.Nodup.map hinj hnd
  have hsub : (cl.map State.state) ⊆ allPerms := by
    intro x hx
    obtain ⟨c, hc, rfl⟩ := List.mem_map.mp hx
    exact List.mem_permutations.mpr (hv c hc)
  have hle := (hmap.subperm hsub).length_le
  unfold stateSpaceN
  simpa using hle

theorem initial_inv (h : State → State → Nat) (start target : State) (hs : start.Valid) :
    SearchInv start target ⟨[(h start target, 0, start)], [], [], [(start, 0)], 0⟩ := by
  refine ⟨?_, ?_, ?_, ?_, ?_, ?_, ?_, ?_, ?_, ?_, ?_, ?_, ?_, ?_, ?_, ?_, ?_⟩
  · exact List.nodup_nil
  · intro c hc; simp at hc
  · intro e he
    rcases List.mem_singleton.mp he with rfl
    exact hs
  · intro e he
    rcases List.mem_singleton.mp he with rfl
    exact Relation.ReflTransGen.refl
  · intro c hc; simp at hc
  · intro c hc; simp at hc
  · right
    exact mem_stOf (List.mem_cons_self _ _)
  · simp
  · intro a p hap; exact Option.noConfusion hap
  · intro a p hap; exact Option.noConfusion hap
  · rfl
  · simp [findVal_cons]
  · intro a ha
    by_cases has : a = start
    · left; exact has
    · rw [findVal_cons, if_neg has] at ha
      exact absurd rfl ha
  · intro a ha
    by_cases has : a = start
    · right
      rw [has]
      exact mem_stOf (List.mem_cons_self _ _)
    · rw [findVal_cons, if_neg has] at ha
      exact absurd rfl ha
  · intro e he
    rcases List.mem_singleton.mp he with rfl
    exact ⟨0, by simp [findVal_cons], le_refl 0⟩
  · intro a g0 hg0
    rw [findVal_cons] at hg0
    by_cases has : a = start
    · rw [if_pos has] at hg0
      have := Option.some.inj hg0
      omega
    · rw [if_neg has] at hg0
      exact Option.noConfusion hg0
  · intro e he
    rcases List.mem_singleton.mp he with rfl
    exact Nat.le_refl 0

theorem stOf_pop {os : List Entry} {f g : Nat} {cur : State} {rest : List Entry}
    (hpop : popMin os = some ((f, g, cur), rest)) {a : State} (ha : a ∈ stOf os) :
    a = cur ∨ a ∈ stOf rest := by
  have hperm := popMin_perm hpop
  have hmm := ((hperm.map (fun e : Entry => e.2.2)).mem_iff).mp ha
  rw [List.map_cons] at hmm
  rcases List.mem_cons.mp hmm with h2 | h2
  · left; exact h2
  · right; exact h2

theorem step_skip_inv (start target : State) (fr : Frontier) (f g : Nat) (cur : State)
    (rest : List Entry) (hInv : SearchInv start target fr)
    (hpop : popMin fr.open_set = some ((f, g, cur), rest)) (hcl : cur ∈ fr.closed_set) :
    SearchInv start target ⟨rest, fr.came_from, fr.closed_set, fr.g_scores, fr.nodes_expanded⟩ ∧
      measureFr ⟨rest, fr.came_from, fr.closed_set, fr.g_scores, fr.nodes_expanded⟩ <
        measureFr fr := by
  have hmem : ∀ x ∈ rest, x ∈ fr.open_set := fun x hx =>
    (popMin_perm hpop).mem_iff.mpr (List.mem_cons_of_mem _ hx)
  constructor
  · refine ⟨hInv.closed_nodup, hInv.closed_valid, ?_, ?_, hInv.closed_reach, ?_, ?_,
      hInv.target_closed, hInv.cf_adj, hInv.cf_gs, hInv.cf_start, hInv.gs_start,
      hInv.gs_cf, ?_, ?_, hInv.gs_bound, ?_⟩
    · exact fun e he => hInv.open_valid e (hmem e he)
    · exact fun e he => hInv.open_reach e (hmem e he)
    · intro c hc n hn
      rcases hInv.closure c hc n hn with h1 | h1
      · left; exact h1
      · rcases stOf_pop hpop h1 with rfl | h2
        · left; exact hcl
        · right; exact h2
    · rcases hInv.start_mem with h1 | h1
      · left; exact h1
      · rcases stOf_pop hpop h1 with rfl | h2
        · left; exact hcl
        · right; exact h2
    · intro a ha
      rcases hInv.gs_mem a ha with h1 | h1
      · left; exact h1
      · rcases stOf_pop hpop h1 with rfl | h2
        · left; exact hcl
        · right; exact h2
    · exact fun e he => hInv.open_gs e (hmem e he)
    · exact fun e he => hInv.open_g_bound e (hmem e he)
  · unfold measureFr
    have hlen : fr.open_set.length = rest.length + 1 := by
      rw [(popMin_perm hpop).length_eq]
      rfl
    dsimp only
    omega

theorem step_expand_inv (h : State → State → Nat) (start target : State) (fr : Frontier)
    (f g : Nat) (cur : State) (rest : List Entry)
    (hInv : SearchInv start target fr)
    (hpop : popMin fr.open_set = some ((f, g, cur), rest))
    (hcl : cur ∉ fr.closed_set) (htg : cur ≠ target) :
    SearchInv start target
      ⟨(cur.get_neighbours.foldl (relax h target cur g (cur :: fr.closed_set))
          (rest, fr.came_from, fr.g_scores)).1,
       (cur.get_neighbours.foldl (relax h target cur g (cur :: fr.closed_set))
          (rest, fr.came_from, fr.g_scores)).2.1,
       cur :: fr.closed_set,
       (cur.get_neighbours.foldl (relax h target cur g (cur :: fr.closed_set))
          (rest, fr.came_from, fr.g_scores)).2.2,
       fr.nodes_expanded + 1⟩ ∧
    measureFr
      ⟨(cur.get_neighbours.foldl (relax h target cur g (cur :: fr.closed_set))
          (rest, fr.came_from, fr.g_scores)).1,
       (cur.get_neighbours.foldl (relax h target cur g (cur :: fr.closed_set))
          (rest, fr.came_from, fr.g_scores)).2.1,
       cur :: fr.closed_set,
       (cur.get_neighbours.foldl (relax h target cur g (cur :: fr.closed_set))
          (rest, fr.came_from, fr.g_scores)).2.2,
       fr.nodes_expanded + 1⟩ < measureFr fr := by
  have hperm := popMin_perm hpop
  have hcur_mem : ((f, g, cur) : Entry) ∈ fr.open_set :=
    hperm.mem_iff.mpr (List.mem_cons_self _ _)
  have hmem : ∀ x ∈ rest, x ∈ fr.open_set := fun x hx =>
    hperm.mem_iff.mpr (List.mem_cons_of_mem _ hx)
  have hcurv : cur.Valid := hInv.open_valid _ hcur_mem
  have hcurr : Reachable start cur := hInv.open_reach _ hcur_mem
  have hgs_cur := hInv.open_gs _ hcur_mem
  have hgb : g ≤ fr.came_from.length := hInv.open_g_bound _ hcur_mem
  have hrinv : RelaxInv start cur g (cur :: fr.closed_set) rest fr.came_from fr.g_scores := by
    refine ⟨?_, ?_, hInv.cf_adj, hInv.cf_gs, hInv.cf_start, hInv.gs_start, hInv.gs_cf,
      ?_, ?_, hInv.gs_bound, ?_, hgb, hgs_cur⟩
    · exact fun e he => hInv.open_valid e (hmem e he)
    · exact fun e he => hInv.open_reach e (hmem e he)
    · intro a ha
      rcases hInv.gs_mem a ha with h1 | h1
      · left; exact List.mem_cons_of_mem _ h1
      · rcases stOf_pop hpop h1 with rfl | h2
        · left; exact List.mem_cons_self _ _
        · right; exact h2
    · exact fun e he => hInv.open_gs e (hmem e he)
    · exact fun e he => hInv.open_g_bound e (hmem e he)
  have hns : ∀ nb ∈ cur.get_neighbours,
      nb.Valid ∧ Reachable start nb ∧ nb ∈ cur.get_neighbours ∧ nb ≠ cur :=
    fun nb hnb => ⟨move_valid hcurv hnb, Relation.ReflTransGen.tail hcurr hnb, hnb,
      move_ne hcurv hnb⟩
  have hfold := relax_fold h target start cur g (cur :: fr.closed_set)
    cur.get_neighbours rest fr.came_from fr.g_scores hrinv hns
  constructor
  · refine ⟨?_, ?_, hfold.1.open_valid, hfold.1.open_reach, ?_, ?_, ?_, ?_,
      hfold.1.cf_adj, hfold.1.cf_gs, hfold.1.cf_start, hfold.1.gs_start, hfold.1.gs_cf,
      hfold.1.gs_mem, hfold.1.open_gs, hfold.1.gs_bound, hfold.1.open_g_bound⟩
    · exact List.nodup_cons.mpr ⟨hcl, hInv.closed_nodup⟩
    · intro c hc
      rcases List.mem_cons.mp hc with rfl | hc'
      · exact hcurv
      · exact hInv.closed_valid c hc'
    · intro c hc
      rcases List.mem_cons.mp hc with rfl | hc'
      · exact hcurr
      · exact hInv.closed_reach c hc'
    · intro c hc n hn
      rcases List.mem_cons.mp hc with rfl | hc'
      · exact hfold.2.1 n hn
      · rcases hInv.closure c hc' n hn with h1 | h1
        · left; exact List.mem_cons_of_mem _ h1
        · rcases stOf_pop hpop h1 with rfl | h2
          · left; exact List.mem_cons_self _ _
          · right; exact stOf_mono hfold.2.2.1 h2
    · rcases hInv.start_mem with h1 | h1
      · left; exact List.mem_cons_of_mem _ h1
      · rcases stOf_pop hpop h1 with rfl | h2
        · left; exact List.mem_cons_self _ _
        · right; exact stOf_mono hfold.2.2.1 h2
    · intro hmem2
      rcases List.mem_cons.mp hmem2 with h1 | h1
      · exact htg h1.symm
      · exact hInv.target_closed h1
  · unfold measureFr
    dsimp only
    have hN : (cur :: fr.closed_set).length ≤ stateSpaceN := by
      apply closed_le_N
      · exact List.nodup_cons.mpr ⟨hcl, hInv.closed_nodup⟩
      · intro c hc
        rcases List.mem_cons.mp hc with rfl | hc'
        · exact hcurv
        · exact hInv.closed_valid c hc'
    have hnb4 : cur.get_neighbours.length ≤ 4 := by
      rw [get_neighbours_length]
      exact table_len _
    have hopen : fr.open_set.length = rest.length + 1 := by
      rw [hperm.length_eq]
      rfl
    have hfl : (cur.get_neighbours.foldl (relax h target cur g (cur :: fr.closed_set))
        (rest, fr.came_from, fr.g_scores)).1.length ≤
        rest.length + cur.get_neighbours.length := hfold.2.2.2.1
    rw [List.length_cons] at hN ⊢
    omega

theorem step_target_path (h : State → State → Nat) (start target : State) (fr : Frontier)
    (f g : Nat) (cur : State) (rest : List Entry)
    (hInv : SearchInv start target fr)
    (hpop : popMin fr.open_set = some ((f, g, cur), rest))
    (hcl : cur ∉ fr.closed_set) (htg : cur = target) :
    ∃ path, aStarStep h start target fr =
        .done (some path, path.length - 1, fr.nodes_expanded) ∧
      1 ≤ path.length ∧ path.head? = some start ∧ path.getLast? = some target ∧
      path.Chain' Move := by
  have hperm := popMin_perm hpop
  have hcur_mem : ((f, g, cur) : Entry) ∈ fr.open_set :=
    hperm.mem_iff.mpr (List.mem_cons_self _ _)
  obtain ⟨g0, hg0, hg0le⟩ := hInv.open_gs _ hcur_mem
  have hbound : g0 ≤ fr.came_from.length := hInv.gs_bound _ _ hg0
  have hbc := backtrack_chain fr.came_from fr.g_scores start hInv.cf_adj hInv.cf_gs
    hInv.gs_cf g0 cur (fr.came_from.length + 1) hg0 (by omega)
  refine ⟨(backtrack fr.came_from (fr.came_from.length + 1) cur ++ [start]).reverse,
    ?_, ?_, ?_, ?_, ?_⟩
  · unfold aStarStep
    rw [hpop]
    dsimp only
    rw [if_neg hcl, if_pos htg]
  · simp
  · rw [List.head?_reverse]
    exact List.getLast?_concat _
  · rw [List.getLast?_reverse]
    rcases hbc.2 with ⟨hnil, hcs⟩ | ⟨r2, hr2⟩
    · rw [hnil]
      have hst : start = target := by rw [← hcs, htg]
      rw [List.nil_append, List.head?_cons, hst]
    · rw [hr2, List.cons_append, List.head?_cons, htg]
  · exact List.chain'_reverse.mpr hbc.1

theorem step_empty (h : State → State → Nat) (start target : State) (fr : Frontier)
    (hInv : SearchInv start target fr) (hpop : popMin fr.open_set = none) :
    aStarStep h start target fr = .done (none, 0, fr.nodes_expanded) ∧
      ¬ Reachable start target := by
  have hempty : fr.open_set = [] := popMin_none.mp hpop
  constructor
  · unfold aStarStep
    rw [hpop]
  · have hstart : start ∈ fr.closed_set := by
      rcases hInv.start_mem with hc | ho
      · exact hc
      · rw [hempty] at ho
        simp [stOf] at ho
    have hclosedall : ∀ t, Reachable start t → t ∈ fr.closed_set := by
      intro t hr
      induction hr with
      | refl => exact hstart
      | tail hr2 hmov ih =>
        rename_i b c
        rcases hInv.closure b ih c hmov with hc | ho
        · exact hc
        · rw [hempty] at ho
          simp [stOf] at ho
    intro hr
    exact hInv.target_closed (hclosedall target hr)

theorem loop_result (h : State → State → Nat) (start target : State) :
    ∀ (fuel : Nat) (fr : Frontier), SearchInv start target fr → measureFr fr < fuel →
      ∃ r, aStarLoop h start target fuel fr = some r ∧
        ((∃ n, r = (none, 0, n) ∧ ¬ Reachable start target) ∨
          (∃ path steps n, r = (some path, steps, n) ∧ path.length = steps + 1 ∧
            path.head? = some start ∧ path.getLast? = some target ∧
            path.Chain' Move ∧ Reachable start target)) := by
  intro fuel
  induction fuel with
  | zero =>
    intro fr _ hm
    omega
  | succ fu ih =>
    intro fr hInv hm
    rw [aStarLoop]
    cases hpop : popMin fr.open_set with
    | none =>
      obtain ⟨hstep, hnr⟩ := step_empty h start target fr hInv hpop
      rw [hstep]
      exact ⟨_, rfl, Or.inl ⟨fr.nodes_expanded, rfl, hnr⟩⟩
    | some pr =>
      rcases pr with ⟨⟨f, g, cur⟩, rest⟩
      by_cases hcl : cur ∈ fr.closed_set
      · have hstep : aStarStep h start target fr =
            .next ⟨rest, fr.came_from, fr.closed_set, fr.g_scores, fr.nodes_expanded⟩ := by
          unfold aStarStep
          rw [hpop]
          dsimp only
          rw [if_pos hcl]
        rw [hstep]
        obtain ⟨hInv', hm'⟩ := step_skip_inv start target fr f g cur rest hInv hpop hcl
        exact ih _ hInv' (by omega)
      · by_cases htg : cur = target
        · obtain ⟨path, hstep, hlen, hhd, hlast, hchain⟩ :=
            step_target_path h start target fr f g cur rest hInv hpop hcl htg
          rw [hstep]
          have hcur_mem : ((f, g, cur) : Entry) ∈ fr.open_set :=
            (popMin_perm hpop).mem_iff.mpr (List.mem_cons_self _ _)
          have hreach : Reachable start target := by
            rw [← htg]
            exact hInv.open_reach _ hcur_mem
          exact ⟨_, rfl, Or.inr ⟨path, path.length - 1, fr.nodes_expanded, rfl,
            by omega, hhd, hlast, hchain, hreach⟩⟩
        · have hstep : aStarStep h start target fr =
              .next ⟨(cur.get_neighbours.foldl
                  (relax h target cur g (cur :: fr.closed_set))
                  (rest, fr.came_from, fr.g_scores)).1,
                (cur.get_neighbours.foldl
                  (relax h target cur g (cur :: fr.closed_set))
                  (rest, fr.came_from, fr.g_scores)).2.1,
                cur :: fr.closed_set,
                (cur.get_neighbours.foldl
                  (relax h target cur g (cur :: fr.closed_set))
                  (rest, fr.came_from, fr.g_scores)).2.2,
                fr.nodes_expanded + 1⟩ := by
            unfold aStarStep
            rw [hpop]
            dsimp only
            rw [if_neg hcl, if_neg htg]
          rw [hstep]
          obtain ⟨hInv', hm'⟩ :=
            step_expand_inv h start target fr f g cur rest hInv hpop hcl htg
          exact ih _ hInv' (by omega)

/-- C1: for every solvable start/target pair of valid states (the target
reachable from the start by blank-swap moves) and ANY heuristic (so in
particular each of `num_misplaced_tiles`, `sum_manhattan_dists`,
`linear_conflicts`), `a_star` terminates (for sufficient fuel) with a path
whose length is `steps + 1`, whose first element is the start, whose last
element is the target, and whose consecutive elements differ by exactly
one blank-swap move. -/
theorem C1_a_star_solvable_path (start target : State) (h : State → State → Nat)
    (hs : start.Valid) (ht : target.Valid) (hreach : Reachable start target) :
    ∃ fuel path steps n, State.a_star start target h fuel = some (some path, steps, n) ∧
      path.length = steps + 1 ∧ path.head? = some start ∧ path.getLast? = some target ∧
      path.Chain' Move := by
  have hInv0 := initial_inv h start target hs
  obtain ⟨r, hrun, hres⟩ := loop_result h start target
    (measureFr ⟨[(h start target, 0, start)], [], [], [(start, 0)], 0⟩ + 1)
    ⟨[(h start target, 0, start)], [], [], [(start, 0)], 0⟩ hInv0 (by omega)
  rcases hres with ⟨n, rfl, hnr⟩ | ⟨path, steps, n, rfl, hlen, hhd, hlast, hchain, _⟩
  · exact absurd hreach hnr
  · exact ⟨measureFr ⟨[(h start target, 0, start)], [], [], [(start, 0)], 0⟩ + 1,
      path, steps, n, hrun, hlen, hhd, hlast, hchain⟩

theorem C1_witness :
    (State.mk goal_list).Valid ∧ (State.mk [1, 0, 2, 3, 4, 5, 6, 7, 8]).Valid ∧
      Move (State.mk goal_list) (State.mk [1, 0, 2, 3, 4, 5, 6, 7, 8]) ∧
      (∃ fuel path steps n,
        State.a_star (State.mk goal_list) (State.mk [1, 0, 2, 3, 4, 5, 6, 7, 8])
            State.num_misplaced_tiles fuel = some (some path, steps, n) ∧
          path.length = steps + 1 ∧ path.head? = some (State.mk goal_list) ∧
          path.getLast? = some (State.mk [1, 0, 2, 3, 4, 5, 6, 7, 8]) ∧
          path.Chain' Move) :=
  ⟨by decide, by decide, by decide,
    C1_a_star_solvable_path _ _ State.num_misplaced_tiles (by decide) (by decide)
      (Relation.ReflTransGen.single (by decide))⟩

/-- C5: for valid start/target states in different solvability parity
classes, the search space halves never meet: `a_star` (with any
heuristic) exhausts the frontier and terminates with `path = none`, steps
0 and a nodes-expanded count; and `is_solvable` is false exactly on
boards whose blank-dropped sequence has an odd inversion count. -/
theorem C5_a_star_unsolvable (start target : State) (h : State → State → Nat)
    (hs : start.Valid) (ht : target.Valid)
    (hpar : start.is_solvable ≠ target.is_solvable) :
    (∃ fuel n, State.a_star start target h fuel = some (none, 0, n)) ∧
      (∀ s : State, countInv (s.state.filter (fun t => decide (t ≠ 0))) % 2 = 1 →
        s.is_solvable = false) := by
  constructor
  · have hnr : ¬ Reachable start target := not_reachable_of_parity hs hpar
    have hInv0 := initial_inv h start target hs
    obtain ⟨r, hrun, hres⟩ := loop_result h start target
      (measureFr ⟨[(h start target, 0, start)], [], [], [(start, 0)], 0⟩ + 1)
      ⟨[(h start target, 0, start)], [], [], [(start, 0)], 0⟩ hInv0 (by omega)
    rcases hres with ⟨n, rfl, _⟩ | ⟨path, steps, n, rfl, _, _, _, _, hreach⟩
    · exact ⟨measureFr ⟨[(h start target, 0, start)], [], [], [(start, 0)], 0⟩ + 1,
        n, hrun⟩
    · exact absurd hreach hnr
  · intro s hodd
    unfold State.is_solvable
    rw [hodd]
    rfl

theorem C5_witness :
    (State.mk goal_list).Valid ∧ (State.mk [0, 2, 1, 3, 4, 5, 6, 7, 8]).Valid ∧
      (State.mk goal_list).is_solvable ≠ (State.mk [0, 2, 1, 3, 4, 5, 6, 7, 8]).is_solvable ∧
      ((∃ fuel n, State.a_star (State.mk goal_list) (State.mk [0, 2, 1, 3, 4, 5, 6, 7, 8])
          State.sum_manhattan_dists fuel = some (none, 0, n)) ∧
        (∀ s : State, countInv (s.state.filter (fun t => decide (t ≠ 0))) % 2 = 1 →
          s.is_solvable = false)) :=
  ⟨by decide, by decide, by decide,
    C5_a_star_unsolvable _ _ State.sum_manhattan_dists (by decide) (by decide) (by decide)⟩
